import Mathlib

/-!
Verification of the `ProjectAnalyzer` scanner and batched-description
pipeline (`src/main.py`) against its natural-language specification.

The shallow embedding below translates the Python source into Lean:

* Python dictionaries (insertion-ordered) become association lists with
  in-place update (`dictSet`) and append-on-miss semantics;
* Python sets used only for membership become `List String`;
* the Python set of detected language names, which is iterated at the end
  of a scan (`list(...)`), becomes an insertion-ordered duplicate-free
  list, matching the in-process deterministic iteration order of CPython
  for a fixed insertion sequence;
* the filesystem is a tree value (`FS`); `stat`/`open` failures are
  `Option`-valued fields; a directory whose listing raises
  `PermissionError` carries `readable := false`;
* exceptions become `Except PyError`; the recursive scan takes a fuel
  argument computed from the size of the tree so that it remains a total,
  kernel-computable function (the fuel is provably sufficient);
* the `langchain` model chain and `json.loads` are the program's external
  collaborators; they are taken as function parameters (`invoke`,
  `loads`).
-/

/-! ## Character-list utilities (Python string primitives) -/

/-- Lexicographic (code-point) comparison of character lists, the order
Python uses for `str < str` and hence for `sorted(iterdir())` entries of a
common parent directory. -/
def charListLt : List Char → List Char → Bool
  | [], [] => false
  | [], _ :: _ => true
  | _ :: _, [] => false
  | a :: as, b :: bs => if a < b then true else if b < a then false else charListLt as bs

/-- Python `str.startswith` on character lists. -/
def listStarts : List Char → List Char → Bool
  | [], _ => true
  | _ :: _, [] => false
  | p :: ps, c :: cs => p == c && listStarts ps cs

/-- Python `str.endswith` on character lists. -/
def listEnds (pat l : List Char) : Bool :=
  listStarts pat.reverse l.reverse

/-- Python `str.lower` (character-wise, faithful on ASCII where all the
compared data lives). -/
def pyLower (s : String) : String :=
  String.mk (s.data.map Char.toLower)

/-- Split a character list at `'\n'`, producing `n + 1` segments for `n`
newline characters. -/
def splitNlChars : List Char → List (List Char)
  | [] => [[]]
  | c :: rest =>
    if c = '\n' then [] :: splitNlChars rest
    else
      match splitNlChars rest with
      | [] => [[c]]
      | seg :: segs => (c :: seg) :: segs

/-! ## Python dict as an insertion-ordered association list -/

/-- `m[k] = v` on a Python dict: replace in place if the key exists,
otherwise append at the end. -/
def dictSet {α : Type} (m : List (String × α)) (k : String) (v : α) : List (String × α) :=
  match m with
  | [] => [(k, v)]
  | (k1, v1) :: rest => if k1 = k then (k1, v) :: rest else (k1, v1) :: dictSet rest k v

/-- `m.get(k)` on a Python dict. -/
def dictGet? {α : Type} (m : List (String × α)) (k : String) : Option α :=
  match m.find? (fun kv => kv.1 == k) with
  | some kv => some kv.2
  | none => none

/-! ## `ProjectAnalyzer.should_ignore` and the classifier data -/

/-- The `default_ignore` set of `ProjectAnalyzer.__init__` (used only for
membership tests, so a list is a faithful model of the Python set). -/
def default_ignore : List String :=
  ["__pycache__", ".git", ".gitignore", ".DS_Store", "node_modules", ".env",
   ".venv", "venv", "env", ".pytest_cache", ".mypy_cache", "dist", "build",
   ".idea", ".vscode", "*.pyc", "*.pyo", "*.pyd", ".coverage", "htmlcov",
   ".tox", ".cache", "eggs", "*.egg-info", "logs", "*.log", ".npm", ".yarn",
   "package-lock.json", "yarn.lock"]

/-- The `code_extensions` allow-list of `ProjectAnalyzer.__init__`. -/
def code_extensions : List String :=
  [".py", ".js", ".ts", ".tsx", ".jsx", ".java", ".cpp", ".c", ".h", ".cs",
   ".php", ".rb", ".go", ".rs", ".swift", ".kt", ".scala", ".html", ".css",
   ".scss", ".sass", ".less", ".vue", ".svelte", ".sql", ".sh", ".bat",
   ".ps1", ".yml", ".yaml", ".json", ".xml", ".md", ".rst", ".txt",
   ".dockerfile", ".config", ".conf"]

/-- The `lang_map` extension-to-language table of `scan_directory`. -/
def lang_map : List (String × String) :=
  [(".py", "Python"), (".js", "JavaScript"), (".ts", "TypeScript"),
   (".tsx", "TypeScript"), (".jsx", "JavaScript"), (".java", "Java"),
   (".cpp", "C++"), (".c", "C"), (".cs", "C#"), (".php", "PHP"),
   (".rb", "Ruby"), (".go", "Go"), (".rs", "Rust"), (".swift", "Swift"),
   (".kt", "Kotlin"), (".scala", "Scala"), (".html", "HTML"),
   (".css", "CSS"), (".scss", "SCSS"), (".sql", "SQL")]

/-- `ProjectAnalyzer.should_ignore(path, ignore_patterns)`.  The caller
passes `path.name` directly; `str.lower` is `Char.toLower` character-wise
(faithful to Python on ASCII, where all the rules live).  The Python
wildcard checks `pattern.startswith("*")` / `pattern.endswith("*")` and the
slices `pattern[1:]` / `pattern[:-1]` are the character-list operations
below. -/
def should_ignore (name : String) (ignore_patterns : List String) : Bool :=
  let nm := name.data.map Char.toLower
  (ignore_patterns.any (fun p => p.data == nm)) ||
  ignore_patterns.any (fun p =>
    (listStarts ['*'] p.data && listEnds (p.data.drop 1) nm) ||
    (listEnds ['*'] p.data && listStarts (p.data.dropLast) nm))

/-! ## `get_file_info` -/

/-- `pathlib.PurePath.suffix`: the extension of the last path component,
empty when the only dot is leading or there is no dot. -/
def path_suffix (name : String) : String :=
  let cs := name.data
  match cs.reverse.findIdx? (fun c => c == '.') with
  | none => ""
  | some j =>
    let i := cs.length - 1 - j
    if 0 < i ∧ i < cs.length - 1 then String.mk (cs.drop i) else ""

/-- Python `str.splitlines()` restricted to `'\n'` terminators (the only
terminator the claims exercise): no trailing empty line, and the empty
string has no lines. -/
def pysplitlines (s : String) : List String :=
  if s = "" then []
  else
    let parts := (splitNlChars s.data).map String.mk
    if s.data.getLast? = some '\n' then parts.dropLast else parts

/-- The success payload of a `get_file_info` dict (the keys present when
`stat` succeeded), or the `{"name", "path", "error"}` failure dict. -/
inductive FileData where
  | ok (size : Nat) (extension : String) (is_code : Bool)
      (content_preview : Option String) (line_count : Option Nat)
  | err (msg : String)
deriving DecidableEq

/-- One element of `project_info["files"]`: the `get_file_info` dict plus
the `relative_path` key that `scan_directory` adds. -/
structure FileInfo where
  name : String
  path : String
  data : FileData
  relative_path : String
deriving DecidableEq

/-- `file_info.get("size", 0)`. -/
def fiSize (f : FileInfo) : Nat :=
  match f.data with
  | .ok size _ _ _ _ => size
  | .err _ => 0

/-- `file_info.get("extension", "")`. -/
def fiExt (f : FileInfo) : String :=
  match f.data with
  | .ok _ ext _ _ _ => ext
  | .err _ => ""

/-- `file_info.get("is_code")` used as a truth value. -/
def fiIsCode (f : FileInfo) : Bool :=
  match f.data with
  | .ok _ _ is_code _ _ => is_code
  | .err _ => false

/-- `ProjectAnalyzer.get_file_info(file_path)`.  `statSize` is the result
of `file_path.stat().st_size` (`none` when `stat` raises); `content` is
the result of reading the file as UTF-8 with `errors="ignore"` (`none`
when `open`/`read` raises).  The failure message of the `except` branch is
modelled by a fixed string since `str(e)` is OS-dependent. -/
def get_file_info (path : String) (name : String)
    (statSize : Option Nat) (content : Option String) : FileInfo :=
  match statSize with
  | none => { name := name, path := path, data := .err "stat failed", relative_path := "" }
  | some size =>
    let ext := pyLower (path_suffix name)
    let is_code := ext ∈ code_extensions
    if is_code ∧ size < 50000 then
      match content with
      | none =>
        { name := name, path := path, data := .ok size ext is_code none none,
          relative_path := "" }
      | some c =>
        let preview := if c.length > 500 then String.mk (c.data.take 500) ++ "..." else c
        { name := name, path := path,
          data := .ok size ext is_code (some preview) (some (pysplitlines c).length),
          relative_path := "" }
    else
      { name := name, path := path, data := .ok size ext is_code none none,
        relative_path := "" }

example : should_ignore "app.LOG" ["*.log"] = true := by decide
example : should_ignore "distribution" ["dist"] = false := by decide
example : should_ignore "DIST" ["dist"] = true := by decide
example : path_suffix "a.tar.gz" = ".gz" := by decide
example : path_suffix ".env" = "" := by decide
example : path_suffix "Makefile" = "" := by decide

instance {ε α : Type} [DecidableEq ε] [DecidableEq α] : DecidableEq (Except ε α) :=
  fun x y =>
    match x, y with
    | .ok a, .ok b =>
      if h : a = b then isTrue (by rw [h])
      else isFalse (by intro he; injection he; contradiction)
    | .error a, .error b =>
      if h : a = b then isTrue (by rw [h])
      else isFalse (by intro he; injection he; contradiction)
    | .ok _, .error _ => isFalse (by intro he; injection he)
    | .error _, .ok _ => isFalse (by intro he; injection he)

/-! ## The filesystem model and `analyze_directory` / `scan_directory`

A directory listing is represented by the sibling-chained tree type `FS`:
`FS.nil` is the empty listing, and each `file`/`dir` node carries the
remaining siblings in its last field.  The chain is isomorphic to a list
of entries; the encoding keeps every recursion over the tree structural,
so all scan functions compute by kernel reduction. -/

/-- A filesystem listing.  A file carries its `stat().st_size` (`none`
when `stat` raises) and its readable text content (`none` when
`open`/`read` raises).  A directory carries `readable := false` when
listing it raises `PermissionError`. -/
inductive FS where
  | nil
  | file (name : String) (statSize : Option Nat) (content : Option String) (rest : FS)
  | dir (name : String) (readable : Bool) (entries : FS) (rest : FS)
deriving DecidableEq

/-- `path.name` of the first entry of a listing. -/
def headName : FS → String
  | .nil => ""
  | .file n _ _ _ => n
  | .dir n _ _ _ => n

/-- Replace the sibling chain of the first entry. -/
def withRest : FS → FS → FS
  | .nil, r => r
  | .file n s c _, r => .file n s c r
  | .dir n rd es _, r => .dir n rd es r

/-- Insert a detached entry (its own `rest` is ignored) into a name-sorted
listing, keeping ascending code-point order. -/
def insertFS (e : FS) : FS → FS
  | .nil => withRest e .nil
  | .file n s c rest =>
    if charListLt n.data (headName e).data then .file n s c (insertFS e rest)
    else withRest e (.file n s c rest)
  | .dir n rd es rest =>
    if charListLt n.data (headName e).data then .dir n rd es (insertFS e rest)
    else withRest e (.dir n rd es rest)

/-- `sorted(current_path.iterdir())`: Python sorts the paths of a common
parent lexicographically, which is exactly ascending name order. -/
def sortFS : FS → FS
  | .nil => .nil
  | .file n s c rest => insertFS (.file n s c .nil) (sortFS rest)
  | .dir n rd es rest => insertFS (.dir n rd es .nil) (sortFS rest)

/-- Number of nodes in a listing (including nested ones); used as fuel
for the scan. -/
def fsSize : FS → Nat
  | .nil => 0
  | .file _ _ _ rest => 1 + fsSize rest
  | .dir _ _ es rest => 1 + fsSize es + fsSize rest

/-- A Python exception value.  `outOfFuel` is an artefact of the fuelled
recursion; it is unreachable for the fuel `analyze_directory` computes. -/
inductive PyError where
  | fileNotFoundError (msg : String)
  | valueError (msg : String)
  | outOfFuel
deriving DecidableEq

/-- The nodes of `project_info["structure"]`, sibling-chained like `FS`:
the dicts `{"name", "type": "directory", "path", "items"}` and
`{"name", "type": "file", "path", "size", "extension"}`. -/
inductive Items where
  | nil
  | dirI (name : String) (path : String) (items : Items) (rest : Items)
  | fileI (name : String) (path : String) (size : Nat) (extension : String) (rest : Items)
deriving DecidableEq

/-- `project_info["statistics"]`. -/
structure Statistics where
  total_files : Nat
  total_directories : Nat
  code_files : Nat
  total_size : Nat
  file_types : List (String × Nat)
  languages : List String
deriving DecidableEq

/-- The parts of `project_info` that `scan_directory` mutates. -/
structure ScanState where
  files : List FileInfo
  directories : List String
  statistics : Statistics
deriving DecidableEq

/-- The full `project_info` dict returned by `analyze_directory`. -/
structure ProjectInfo where
  project_name : String
  root_path : String
  struct : Items
  files : List FileInfo
  directories : List String
  statistics : Statistics
deriving DecidableEq

def initStats : Statistics :=
  { total_files := 0, total_directories := 0, code_files := 0, total_size := 0,
    file_types := [], languages := [] }

/-- `file_types[ext] = file_types.get(ext, 0) + 1`. -/
def bumpType (m : List (String × Nat)) (ext : String) : List (String × Nat) :=
  dictSet m ext ((dictGet? m ext).getD 0 + 1)

/-- `languages.add(lang)` on the model of the Python set. -/
def addLang (l : List String) (lang : String) : List String :=
  if lang ∈ l then l else l ++ [lang]

def tooManyMsg : String := "Project contains more than 500 files. Aborting analysis."

/-- The body of the nested `scan_directory` function, one step per entry
of the (already sorted) listing of the current directory; recursion into a
subdirectory sorts that subdirectory's listing, exactly as
`sorted(current_path.iterdir())` does.  The fuel strictly decreases on
every recursive call and `analyze_directory` supplies enough for the whole
tree. -/
def scan_list : Nat → List String → String → String → FS → ScanState →
    Except PyError (Items × ScanState)
  | 0, _, _, _, _, _ => .error .outOfFuel
  | _ + 1, _, _, _, .nil, st => .ok (.nil, st)
  | fuel + 1, ig, absPath, relPath, .dir name readable entries rest, st =>
    if should_ignore name ig then
      scan_list fuel ig absPath relPath rest st
    else
      let item_relative := if relPath = "" then name else relPath ++ "/" ++ name
      let st1 : ScanState :=
        { st with
          directories := st.directories ++ [item_relative],
          statistics :=
            { st.statistics with
              total_directories := st.statistics.total_directories + 1 } }
      match (if readable then
              scan_list fuel ig (absPath ++ "/" ++ name) item_relative
                (sortFS entries) st1
            else .ok (.nil, st1)) with
      | .error e => .error e
      | .ok (sub_items, st2) =>
        match scan_list fuel ig absPath relPath rest st2 with
        | .error e => .error e
        | .ok (items, st3) => .ok (.dirI name item_relative sub_items items, st3)
  | fuel + 1, ig, absPath, relPath, .file name statSize content rest, st =>
    if should_ignore name ig then
      scan_list fuel ig absPath relPath rest st
    else
      let item_relative := if relPath = "" then name else relPath ++ "/" ++ name
      let tf := st.statistics.total_files + 1
      if tf > 500 then .error (.valueError tooManyMsg)
      else
        let fi0 := get_file_info (absPath ++ "/" ++ name) name statSize content
        let fi := { fi0 with relative_path := item_relative }
        let ext := fiExt fi
        let stats1 : Statistics :=
          { st.statistics with
            total_files := tf,
            total_size := st.statistics.total_size + fiSize fi,
            file_types := if ext ≠ "" then bumpType st.statistics.file_types ext
                          else st.statistics.file_types,
            code_files := if fiIsCode fi then st.statistics.code_files + 1
                          else st.statistics.code_files,
            languages := if fiIsCode fi then
                (match dictGet? lang_map ext with
                 | some lang => addLang st.statistics.languages lang
                 | none => st.statistics.languages)
              else st.statistics.languages }
        let st1 : ScanState := { st with files := st.files ++ [fi], statistics := stats1 }
        match scan_list fuel ig absPath relPath rest st1 with
        | .error e => .error e
        | .ok (items, st2) =>
          .ok (.fileI name item_relative (fiSize fi) ext items, st2)

/-- What `Path(root_path).resolve()` designates on disk:
`missing` when `not root.exists()`, `nonDir` when the path exists but
`not root.is_dir()`, and otherwise the directory's name, readability and
listing. -/
inductive Resolved where
  | missing
  | nonDir
  | dir (name : String) (readable : Bool) (entries : FS)
deriving DecidableEq

/-- `ProjectAnalyzer.analyze_directory(root_path, ignore_folders)`.
`resolved` is the filesystem lookup of `Path(root_path).resolve()`;
`root_path` stands for the resolved path string.  The final
`list(languages)` conversion is the identity on the insertion-ordered
model of the set. -/
def analyze_directory (root_path : String) (resolved : Resolved)
    (ignore_folders : Option (List String)) : Except PyError ProjectInfo :=
  match resolved with
  | .missing =>
    .error (.fileNotFoundError
      ("Project path does not exist or is not a directory: " ++ root_path))
  | .nonDir =>
    .error (.fileNotFoundError
      ("Project path does not exist or is not a directory: " ++ root_path))
  | .dir name readable entries =>
    let ignore_patterns := default_ignore ++ (ignore_folders.getD [])
    let st0 : ScanState := { files := [], directories := [], statistics := initStats }
    match (if readable then
            scan_list (fsSize entries + 1) ignore_patterns root_path ""
              (sortFS entries) st0
          else .ok (.nil, st0)) with
    | .error e => .error e
    | .ok (struct, st) =>
      .ok { project_name := name, root_path := root_path, struct := struct,
            files := st.files, directories := st.directories,
            statistics := st.statistics }

example :
    analyze_directory "/p" (.dir "p" true
      (.file "a.py" (some 10) (some "print(1)\n")
        (.dir "node_modules" true (.file "x.js" (some 5) none .nil) .nil))) none =
    .ok { project_name := "p", root_path := "/p",
          struct := .fileI "a.py" "a.py" 10 ".py" .nil,
          files := [{ name := "a.py", path := "/p/a.py",
                      data := .ok 10 ".py" true (some "print(1)\n") (some 1),
                      relative_path := "a.py" }],
          directories := [],
          statistics := { total_files := 1, total_directories := 0, code_files := 1,
                          total_size := 10, file_types := [(".py", 1)],
                          languages := ["Python"] } } := by decide

/-! ## `generate_tree_view` and its structural re-parser -/

/-- Whether the remaining sibling chain is empty, i.e. the current item is
`structure[len(structure)-1]` in the `enumerate` loop. -/
def itemsIsNil : Items → Bool
  | .nil => true
  | _ => false

/-- `ProjectAnalyzer.generate_tree_view(structure, prefix, is_last)`.
The third parameter is passed by the source but never read (only the
local `is_last_item` is used). -/
def generate_tree_view : Items → String → Bool → String
  | .nil, _, _ => ""
  | .fileI name _ _ _ rest, pfx, is_last =>
    let is_last_item := itemsIsNil rest
    let current_prefix := if is_last_item then "└─ " else "├─ "
    pfx ++ current_prefix ++ name ++ "\n" ++ generate_tree_view rest pfx is_last
  | .dirI name _ items rest, pfx, is_last =>
    let is_last_item := itemsIsNil rest
    let current_prefix := if is_last_item then "└─ " else "├─ "
    let extension := if is_last_item then "   " else "│  "
    pfx ++ current_prefix ++ name ++ "\n" ++
      generate_tree_view items (pfx ++ extension) is_last_item ++
      generate_tree_view rest pfx is_last

/-- The pure nesting structure of a structural tree: names with
parent/child nesting and sibling order (sibling-chained like `Items`).
This is what the renderer exposes: a childless directory and a file
render identically, so re-parsing recovers exactly this shape. -/
inductive Shapes where
  | nil
  | node (name : String) (children : Shapes) (rest : Shapes)
deriving DecidableEq

/-- The shape of a structural tree. -/
def shapeOfItems : Items → Shapes
  | .nil => .nil
  | .fileI n _ _ _ rest => .node n .nil (shapeOfItems rest)
  | .dirI n _ items rest => .node n (shapeOfItems items) (shapeOfItems rest)

/-- The connector of a rendered line: `"└─ "` for the last sibling,
`"├─ "` otherwise. -/
def connOf (last : Bool) : List Char :=
  if last then ['└', '─', ' '] else ['├', '─', ' ']

/-- The per-level continuation added to the prefix for a directory's
descendants: `"   "` after a terminal connector, `"│  "` otherwise. -/
def extOf (last : Bool) : List Char :=
  if last then [' ', ' ', ' '] else ['│', ' ', ' ']

/-- Locate the first connector character of a rendered line, returning its
index and the characters after the full 3-character connector. -/
def connSplit : List Char → Nat → Option (Nat × List Char)
  | [], _ => none
  | c :: rest, k =>
    if c = '├' ∨ c = '└' then some (k, rest.drop 2) else connSplit rest (k + 1)

/-- Depth (connector index divided by the 3-character level width) and
name of a rendered line. -/
def lineInfo (l : List Char) : Nat × List Char :=
  match connSplit l 0 with
  | some (k, nm) => (k / 3, nm)
  | none => (0, l)

/-- Rebuild a sibling chain of shapes from depth-annotated lines: a line
at the expected depth `d` starts a node whose children are the following
lines at depth `d + 1`; a line at a smaller depth ends the chain.  The
fuel only needs to exceed the number of lines. -/
def buildForest : Nat → Nat → List (Nat × List Char) → Shapes × List (Nat × List Char)
  | 0, _, infos => (.nil, infos)
  | _ + 1, _, [] => (.nil, [])
  | fuel + 1, d, (k, nm) :: rest =>
    if k = d then
      let child := buildForest fuel (d + 1) rest
      let sib := buildForest fuel d child.2
      (.node (String.mk nm) child.1 sib.1, sib.2)
    else (.nil, (k, nm) :: rest)

/-- Re-parse a rendered tree by its connector shapes. -/
def parseTree (s : String) : Shapes :=
  let ls := (splitNlChars s.data).dropLast
  let infos := ls.map lineInfo
  (buildForest (infos.length + 1) 0 infos).1

/-- No name anywhere in the tree contains a newline (names are filesystem
entry names, which the renderer prints on single lines). -/
def noNlItems : Items → Bool
  | .nil => true
  | .fileI n _ _ _ rest => !(n.data.contains '\n') && noNlItems rest
  | .dirI n _ items rest => !(n.data.contains '\n') && (noNlItems items && noNlItems rest)

/-! ## `extract_json_from_markdown` and the JSON value model -/

/-- Remainder after the first occurrence of `pat` (a nonempty pattern). -/
def afterFirst (pat : List Char) : List Char → Option (List Char)
  | [] => none
  | c :: rest =>
    if listStarts pat (c :: rest) then some ((c :: rest).drop pat.length)
    else afterFirst pat rest

/-- Characters before the first occurrence of `pat`; `none` when `pat`
does not occur. -/
def upToFirst (pat : List Char) : List Char → Option (List Char)
  | [] => none
  | c :: rest =>
    if listStarts pat (c :: rest) then some []
    else
      match upToFirst pat rest with
      | none => none
      | some pre2 => some (c :: pre2)

/-- Python regex `\s` (ASCII): space, tab, newline, carriage return,
vertical tab, form feed. -/
def isPySpace (c : Char) : Bool :=
  c == ' ' || c == '\t' || c == '\n' || c == '\r' || c == '\x0b' || c == '\x0c'

/-- Strip leading and trailing `\s` characters. -/
def trimPySpace (l : List Char) : List Char :=
  ((l.dropWhile isPySpace).reverse.dropWhile isPySpace).reverse

/-- `ProjectAnalyzer.extract_json_from_markdown(response)`:
`re.search(r"```json\s*(.*?)\s*```", response, re.DOTALL)`.  The leftmost
match starts at the first occurrence of the opening marker; the lazy body
ends at the first following occurrence of the closing backticks; the two
`\s*` groups strip surrounding whitespace from the captured group. -/
def extract_json_from_markdown (response : String) : Option String :=
  match afterFirst "```json".data response.data with
  | none => none
  | some rest =>
    match upToFirst "```".data rest with
    | none => none
    | some mid => some (String.mk (trimPySpace mid))

/-- A JSON value as produced by `json.loads`.  Objects are sibling-chained
(`objNil`/`objCons`) so that recursion over them is structural; `json.loads`
produces chains with distinct keys.  The program never inspects the
contents of an array, only its type and truthiness, so an array is
modelled by its non-emptiness alone; numbers are modelled by integers
(no claim involves numeric payloads). -/
inductive Json where
  | str (s : String)
  | num (n : Int)
  | bool (b : Bool)
  | null
  | arr (nonempty : Bool)
  | objNil
  | objCons (key : String) (val : Json) (rest : Json)
deriving DecidableEq

/-- Python `dict.get(key, dflt)` on a JSON object chain. -/
def objGet : Json → String → Json → Json
  | .objCons k v rest, key, dflt => if k = key then v else objGet rest key dflt
  | _, _, dflt => dflt

/-- The `.items()` view of a JSON object chain. -/
def objPairs : Json → List (String × Json)
  | .objCons k v rest => (k, v) :: objPairs rest
  | _ => []

/-- Python truthiness of a JSON value (`if not dir_description`). -/
def jsonTruthy : Json → Bool
  | .str s => s != ""
  | .num n => n != 0
  | .bool b => b
  | .null => false
  | .arr nonempty => nonempty
  | .objNil => false
  | .objCons _ _ _ => true

/-! ## `generate_descriptions` -/

/-- `os.path.dirname` for the slash-separated relative paths the scan
builds: everything before the last `'/'`, empty when there is none. -/
def dirname (p : String) : String :=
  match p.data.reverse.findIdx? (fun c => c == '/') with
  | none => ""
  | some j => String.mk (p.data.take (p.data.length - 1 - j))

/-- `", ".join(batch)`. -/
def joinComma : List String → String
  | [] => ""
  | [s] => s
  | s :: rest => s ++ ", " ++ joinComma rest

/-- The argument passed for `{file_list}`:
`", ".join(batch) if batch else "No files"`. -/
def joinBatch (batch : List String) : String :=
  if batch.isEmpty then "No files" else joinComma batch

/-- The outcome of `llm_chain.invoke(...)`: the chain either raises or
returns the model's text. -/
inductive InvokeResult where
  | raises
  | returns (response : String)

/-- The model-chain collaborator: directory name and rendered file list in,
outcome out. -/
abbrev Oracle := String → String → InvokeResult

/-- The `json.loads` collaborator: `none` models `json.JSONDecodeError`. -/
abbrev Loads := String → Option Json

/-- The batching comprehension
`[file_list[i:i+batch_size] for i in range(0, len(file_list), batch_size)]`
with `batch_size = 10`, unrolled so that the recursion is structural. -/
def chunk10 : List String → List (List String)
  | [] => []
  | a :: b :: c :: d :: e :: f :: g :: h :: i :: j :: rest =>
    [a, b, c, d, e, f, g, h, i, j] :: chunk10 rest
  | l => [l]

def fallback_missing_json : String := "Description unavailable due to missing JSON"
def fallback_parse_error : String := "Description unavailable due to JSON parsing error"
def fallback_unexpected : String := "Description unavailable due to unexpected error"

/-- The `for filename in batch` fallback loop of the three failure
branches: map every file of the batch to the fallback string. -/
def setBatchFallback (fds : List (String × Json)) (dir_path : String)
    (batch : List String) (fb : String) : List (String × Json) :=
  batch.foldl (fun m filename => dictSet m (dir_path ++ "/" ++ filename) (Json.str fb)) fds

/-- One iteration of the `for batch in file_batches` loop of
`generate_descriptions`: invoke the chain, extract the fenced JSON block,
parse it, and either merge the dict's data (adopting its
`directory_description` only while the current one is falsy) or fall back.
A parsed value that is not a dict, or whose `files` value is not a dict,
raises `AttributeError` inside the `try` and lands in the generic
`except Exception` branch. -/
def process_batch (loads : Loads) (invoke : Oracle) (dir_path : String)
    (acc : Json × List (String × Json)) (batch : List String) :
    Json × List (String × Json) :=
  let dir_description := acc.1
  let file_descriptions := acc.2
  match invoke dir_path (joinBatch batch) with
  | .raises =>
    (Json.str fallback_unexpected,
     setBatchFallback file_descriptions dir_path batch fallback_unexpected)
  | .returns response =>
    match extract_json_from_markdown response with
    | none =>
      (Json.str fallback_missing_json,
       setBatchFallback file_descriptions dir_path batch fallback_missing_json)
    | some response_content =>
      match loads response_content with
      | none =>
        (Json.str fallback_parse_error,
         setBatchFallback file_descriptions dir_path batch fallback_parse_error)
      | some dir_data =>
        match dir_data with
        | .objNil =>
          let dd := if jsonTruthy dir_description then dir_description
                    else objGet .objNil "directory_description" (Json.str "Description unavailable")
          (dd, file_descriptions)
        | .objCons k v r =>
          let kvs := Json.objCons k v r
          let dd := if jsonTruthy dir_description then dir_description
                    else objGet kvs "directory_description" (Json.str "Description unavailable")
          match objGet kvs "files" Json.objNil with
          | .objNil => (dd, file_descriptions)
          | .objCons fk fv fr =>
            (dd, (objPairs (Json.objCons fk fv fr)).foldl
                   (fun m kv => dictSet m (dir_path ++ "/" ++ kv.1) kv.2)
                   file_descriptions)
          | _ =>
            (Json.str fallback_unexpected,
             setBatchFallback file_descriptions dir_path batch fallback_unexpected)
        | _ =>
          (Json.str fallback_unexpected,
           setBatchFallback file_descriptions dir_path batch fallback_unexpected)

/-- The whole per-directory batch loop: fold `process_batch` over the
batches starting from `dir_description = ""`, `file_descriptions = {}`. -/
def describe_dir (loads : Loads) (invoke : Oracle) (dir_path : String)
    (file_list : List String) : Json × List (String × Json) :=
  (chunk10 file_list).foldl (process_batch loads invoke dir_path) (Json.str "", [])

/-- The result of `generate_descriptions`:
`{"directories": {...}, "files": {...}}`. -/
structure Descriptions where
  directories : List (String × Json)
  files : List (String × Json)
deriving DecidableEq

/-- `files_by_dir` accumulation: append `f` to the bucket of `k`, creating
the bucket at the end on first use (Python dict-of-lists insertion
order). -/
def addToGroup (m : List (String × List FileInfo)) (k : String) (f : FileInfo) :
    List (String × List FileInfo) :=
  match m with
  | [] => [(k, [f])]
  | (k1, fs) :: rest =>
    if k1 = k then (k1, fs ++ [f]) :: rest else (k1, fs) :: addToGroup rest k f

/-- `os.path.dirname(file_info["relative_path"]) or "root"`: the grouping
key of a file. -/
def dirKeyOf (f : FileInfo) : String :=
  let d := dirname f.relative_path
  if d = "" then "root" else d

/-- One iteration of the outer `for dir_path in ...` loop of
`generate_descriptions`: look up the directory's files, run all its
batches, then commit the directory description and merge the collected
file descriptions (`descriptions["files"].update(file_descriptions)`). -/
def commit_dir (loads : Loads) (invoke : Oracle)
    (files_by_dir : List (String × List FileInfo))
    (descriptions : Descriptions) (dir_path : String) : Descriptions :=
  let file_list := ((files_by_dir.find? (fun kv => kv.1 == dir_path)).map
    (fun kv => kv.2)).getD [] |>.map (fun f => f.name)
  let acc := describe_dir loads invoke dir_path file_list
  { directories := dictSet descriptions.directories dir_path acc.1,
    files := acc.2.foldl (fun m kv => dictSet m kv.1 kv.2) descriptions.files }

/-- `ProjectAnalyzer.generate_descriptions(project_info)` with the two
external collaborators (`json.loads` and the prompt/model/parser chain) as
parameters.  Groups files by `os.path.dirname(relative_path) or "root"`,
iterates the grouped directories followed by the model directories that
own no files, batches each directory's file names by 10, and commits the
adopted directory description and merged per-file descriptions. -/
def generate_descriptions (loads : Loads) (invoke : Oracle)
    (project_info : ProjectInfo) : Descriptions :=
  let files_by_dir := project_info.files.foldl
    (fun m f => addToGroup m (dirKeyOf f) f) []
  let dirKeys := files_by_dir.map (fun kv => kv.1)
  let loopKeys := dirKeys ++ project_info.directories.filter (fun d => ¬ dirKeys.contains d)
  loopKeys.foldl (commit_dir loads invoke files_by_dir) { directories := [], files := [] }

example :
    extract_json_from_markdown "text ```json\n \x7b\"a\": 1\x7d \n``` tail" =
      some "\x7b\"a\": 1\x7d" := by decide
example : extract_json_from_markdown "no fence at all" = none := by decide
example : chunk10 ["a", "b", "c"] = [["a", "b", "c"]] := by decide
example : dirname "a/b/c.py" = "a/b" := by decide
example : dirname "c.py" = "" := by decide

/-! ## Character and pattern lemmas -/

theorem char_toNat_ofNat_valid (n : Nat) (h : n.isValidChar) :
    (Char.ofNat n).toNat = n := by
  simp [Char.ofNat, h, Char.ofNatAux, Char.toNat, UInt32.toNat]

/-- `str.lower` never produces an ASCII uppercase letter. -/
theorem toLower_not_upper (c u : Char) (h1 : 'A' ≤ u) (h2 : u ≤ 'Z') :
    Char.toLower c ≠ u := by
  have hu1 : 65 ≤ u.toNat := by
    simpa [Char.le_def, Char.toNat] using h1
  have hu2 : u.toNat ≤ 90 := by
    simpa [Char.le_def, Char.toNat] using h2
  simp only [Char.toLower]
  by_cases hc : c.toNat ≥ 65 ∧ c.toNat ≤ 90
  · rw [if_pos hc]
    intro he
    have hv : (c.toNat + 32).isValidChar := Or.inl (by omega)
    have h3 := char_toNat_ofNat_valid (c.toNat + 32) hv
    rw [he] at h3
    omega
  · rw [if_neg hc]
    intro he
    rw [he] at hc
    omega

theorem mem_of_listStarts {p l : List Char} (h : listStarts p l = true) :
    ∀ c ∈ p, c ∈ l := by
  induction p generalizing l with
  | nil => intro c hc; cases hc
  | cons a as ih =>
    cases l with
    | nil => simp [listStarts] at h
    | cons b bs =>
      simp only [listStarts, Bool.and_eq_true, beq_iff_eq] at h
      obtain ⟨rfl, h2⟩ := h
      intro c hc
      rcases List.mem_cons.mp hc with rfl | hc2
      · exact List.mem_cons_self _ _
      · exact List.mem_cons_of_mem _ (ih h2 c hc2)

theorem mem_of_listEnds {p l : List Char} (h : listEnds p l = true) :
    ∀ c ∈ p, c ∈ l := by
  intro c hc
  have := mem_of_listStarts (p := p.reverse) (l := l.reverse) h c
    (List.mem_reverse.mpr hc)
  exact List.mem_reverse.mp this

theorem listStarts_star {l : List Char} (h : listStarts ['*'] l = true) :
    ∃ tl, l = '*' :: tl := by
  cases l with
  | nil => simp [listStarts] at h
  | cons b bs =>
    simp only [listStarts, Bool.and_eq_true, beq_iff_eq] at h
    exact ⟨bs, by rw [h.1]⟩

theorem listEnds_star {l : List Char} (h : listEnds ['*'] l = true) :
    ∃ init, l = init ++ ['*'] := by
  obtain ⟨tl, htl⟩ := listStarts_star (l := l.reverse) h
  refine ⟨tl.reverse, ?_⟩
  have := congrArg List.reverse htl
  simpa using this

/-- Whether a string contains an ASCII uppercase letter. -/
def hasUpperAZ (s : String) : Bool :=
  s.data.any (fun c => decide ('A' ≤ c ∧ c ≤ 'Z'))

/-! ## Claim theorems: classifier and ignore rules -/

/-- Claim C6: every file record built by `get_file_info` from a successful
`stat` has `is_code` true exactly when the lower-cased extension is in the
fixed allow-list, has a content preview only if it is code-classified and
strictly smaller than 50,000 bytes, and keeps `content_preview = None`
when the read fails. -/
theorem file_record_classification (path name : String) (sz : Nat)
    (content : Option String) :
    ∃ ext isc cp lc,
      (get_file_info path name (some sz) content).data = .ok sz ext isc cp lc ∧
      (isc = true ↔ pyLower (path_suffix name) ∈ code_extensions) ∧
      (cp ≠ none → isc = true ∧ sz < 50000) ∧
      (content = none → cp = none) := by
  simp only [get_file_info]
  by_cases h : pyLower (path_suffix name) ∈ code_extensions ∧ sz < 50000
  · rw [if_pos h]
    cases content with
    | none =>
      exact ⟨_, _, none, none, rfl, by simp, by simp, fun _ => rfl⟩
    | some c =>
      refine ⟨_, _, _, _, rfl, by simp, fun _ => ⟨by simp [h.1], h.2⟩, by simp⟩
  · rw [if_neg h]
    exact ⟨_, _, none, none, rfl, by simp, by simp, fun _ => rfl⟩

theorem file_record_classification_witness :
    ∃ ext isc cp lc,
      (get_file_info "/p/a.py" "a.py" (some 10) (some "x")).data = .ok 10 ext isc cp lc ∧
      (isc = true ↔ pyLower (path_suffix "a.py") ∈ code_extensions) ∧
      (cp ≠ none → isc = true ∧ 10 < 50000) ∧
      ((some "x" : Option String) = none → cp = none) :=
  file_record_classification "/p/a.py" "a.py" 10 (some "x")

/-- Claim C7: `should_ignore` matches the lower-cased entry name --
`"*.log"` ignores `"app.LOG"`; `"dist"` ignores exactly the names whose
lower-casing is `"dist"` (hence `"DIST"` but not `"distribution"`); a rule
starting with `*` matches whenever the lower-cased name ends with the
remainder, and a rule ending with `*` matches whenever it starts with the
remainder. -/
theorem ignore_rules_case_insensitive :
    should_ignore "app.LOG" ["*.log"] = true ∧
    (∀ name : String,
      should_ignore name ["dist"] = true ↔ name.data.map Char.toLower = "dist".data) ∧
    should_ignore "distribution" ["dist"] = false ∧
    (∀ (pat name : String) (rules : List String), pat ∈ rules →
      pat.data.head? = some '*' →
      listEnds (pat.data.drop 1) (name.data.map Char.toLower) = true →
      should_ignore name rules = true) ∧
    (∀ (pat name : String) (rules : List String), pat ∈ rules →
      pat.data.getLast? = some '*' →
      listStarts pat.data.dropLast (name.data.map Char.toLower) = true →
      should_ignore name rules = true) := by
  refine ⟨by decide, ?_, by decide, ?_, ?_⟩
  · intro name
    have h1 : listStarts ['*'] "dist".data = false := by decide
    have h2 : listEnds ['*'] "dist".data = false := by decide
    simp only [should_ignore, List.any_cons, List.any_nil, h1, h2,
      Bool.false_and, Bool.or_false, Bool.false_or]
    rw [beq_iff_eq]
    exact eq_comm
  · intro pat name rules hmem hhead hends
    cases hpd : pat.data with
    | nil => rw [hpd] at hhead; simp at hhead
    | cons c tl =>
      rw [hpd] at hhead
      simp only [List.head?_cons, Option.some_inj] at hhead
      subst hhead
      simp only [should_ignore, Bool.or_eq_true, List.any_eq_true]
      right
      refine ⟨pat, hmem, ?_⟩
      have h1 : listStarts ['*'] pat.data = true := by
        rw [hpd]; simp [listStarts]
      exact Or.inl (by rw [Bool.and_eq_true]; exact ⟨h1, hends⟩)
  · intro pat name rules hmem hstar hstarts
    simp only [should_ignore, Bool.or_eq_true, List.any_eq_true]
    right
    refine ⟨pat, hmem, ?_⟩
    obtain ⟨init, hinit⟩ := List.getLast?_eq_some_iff.mp hstar
    have hre : listEnds ['*'] pat.data = true := by
      rw [hinit]
      simp [listEnds, listStarts, List.reverse_append]
    exact Or.inr (by rw [Bool.and_eq_true]; exact ⟨hre, hstarts⟩)

theorem ignore_rules_case_insensitive_witness :
    should_ignore "x.TMP" ["*.tmp"] = true ∧
    should_ignore "TEMPfile" ["temp*"] = true ∧
    should_ignore "DIST" ["dist"] = true := by
  refine ⟨?_, ?_, ?_⟩
  · exact ignore_rules_case_insensitive.2.2.2.1 "*.tmp" "x.TMP" ["*.tmp"]
      (by decide) (by decide) (by decide)
  · exact ignore_rules_case_insensitive.2.2.2.2 "temp*" "TEMPfile" ["temp*"]
      (by decide) (by decide) (by decide)
  · exact (ignore_rules_case_insensitive.2.1 "DIST").mpr (by decide)

/-- Claim C8: whenever the root path does not resolve to an existing
directory, `analyze_directory` fails with the not-a-directory error
(`FileNotFoundError` in the source, the spec's `NotADirectoryError`) and
produces no project model. -/
theorem scan_missing_root_error (root_path : String) (resolved : Resolved)
    (igf : Option (List String)) (h : resolved = .missing ∨ resolved = .nonDir) :
    analyze_directory root_path resolved igf =
      .error (.fileNotFoundError
        ("Project path does not exist or is not a directory: " ++ root_path)) := by
  rcases h with rfl | rfl <;> rfl

theorem scan_missing_root_error_witness :
    analyze_directory "/nope" .missing none =
      .error (.fileNotFoundError
        ("Project path does not exist or is not a directory: " ++ "/nope")) :=
  scan_missing_root_error "/nope" .missing none (Or.inl rfl)

/-- Claim C10: `should_ignore` lower-cases the name but not the rules, so
a rule containing an ASCII uppercase letter can never be the reason a path
is ignored: adding such a rule never changes the result. -/
theorem upper_rule_never_matches (name pat : String) (rules : List String)
    (h : hasUpperAZ pat = true) :
    should_ignore name (pat :: rules) = should_ignore name rules := by
  obtain ⟨u, hu_mem, hu⟩ := List.any_eq_true.mp h
  have hAZ : 'A' ≤ u ∧ u ≤ 'Z' := of_decide_eq_true hu
  have hnm : ∀ c ∈ name.data.map Char.toLower, c ≠ u := by
    intro c hc
    obtain ⟨c0, _, rfl⟩ := List.mem_map.mp hc
    exact toLower_not_upper c0 u hAZ.1 hAZ.2
  have hustar : u ≠ '*' := by
    intro he
    rw [he] at hAZ
    exact absurd hAZ.1 (by decide)
  have hp0 : (pat.data == name.data.map Char.toLower) = false := by
    rw [Bool.eq_false_iff]
    intro hbe
    have : pat.data = name.data.map Char.toLower := by
      exact eq_of_beq hbe
    exact hnm u (this ▸ hu_mem) rfl
  have hq1 : (listStarts ['*'] pat.data && listEnds (pat.data.drop 1)
      (name.data.map Char.toLower)) = false := by
    rw [Bool.eq_false_iff]
    intro hbe
    rw [Bool.and_eq_true] at hbe
    obtain ⟨tl, htl⟩ := listStarts_star hbe.1
    have hu_tl : u ∈ tl := by
      rw [htl] at hu_mem
      rcases List.mem_cons.mp hu_mem with he | h2
      · exact absurd he hustar
      · exact h2
    have : u ∈ name.data.map Char.toLower := by
      apply mem_of_listEnds hbe.2
      rw [htl]
      simpa using hu_tl
    exact hnm u this rfl
  have hq2 : (listEnds ['*'] pat.data && listStarts pat.data.dropLast
      (name.data.map Char.toLower)) = false := by
    rw [Bool.eq_false_iff]
    intro hbe
    rw [Bool.and_eq_true] at hbe
    obtain ⟨init, hinit⟩ := listEnds_star hbe.1
    have hu_init : u ∈ init := by
      rw [hinit] at hu_mem
      rcases List.mem_append.mp hu_mem with h2 | he
      · exact h2
      · simp at he
        exact absurd he hustar
    have : u ∈ name.data.map Char.toLower := by
      apply mem_of_listStarts hbe.2
      rw [hinit]
      simpa using hu_init
    exact hnm u this rfl
  simp only [should_ignore, List.any_cons, hp0, hq1, hq2, Bool.false_or]

theorem upper_rule_never_matches_witness :
    hasUpperAZ "Build" = true ∧
    should_ignore "build" ["Build", "dist"] = should_ignore "build" ["dist"] :=
  ⟨by decide, upper_rule_never_matches "build" "Build" ["dist"] (by decide)⟩

/-! ## Dictionary lemmas -/

theorem dictGet?_cons {α : Type} (k1 : String) (v1 : α) (rest : List (String × α))
    (k : String) :
    dictGet? ((k1, v1) :: rest) k = if k1 = k then some v1 else dictGet? rest k := by
  by_cases h : k1 = k
  · simp [dictGet?, List.find?_cons, h]
  · simp only [dictGet?, List.find?]
    have hb : ((k1, v1).1 == k) = false := by
      simp [h]
    rw [hb]
    simp [h]

theorem dictGet?_dictSet_self {α : Type} (m : List (String × α)) (k : String) (v : α) :
    dictGet? (dictSet m k v) k = some v := by
  induction m with
  | nil => simp [dictSet, dictGet?]
  | cons kv rest ih =>
    obtain ⟨k1, v1⟩ := kv
    by_cases h : k1 = k
    · subst h
      simp [dictSet, dictGet?]
    · simp only [dictSet, if_neg h]
      rw [dictGet?_cons, if_neg h]
      exact ih

theorem dictGet?_dictSet_other {α : Type} (m : List (String × α)) (k k' : String)
    (v : α) (h : k' ≠ k) :
    dictGet? (dictSet m k v) k' = dictGet? m k' := by
  induction m with
  | nil =>
    simp only [dictSet]
    rw [dictGet?_cons, if_neg (fun he => h he.symm)]
  | cons kv rest ih =>
    obtain ⟨k1, v1⟩ := kv
    by_cases h1 : k1 = k
    · subst h1
      rw [show dictSet ((k1, v1) :: rest) k1 v = (k1, v) :: rest from by
        simp [dictSet]]
      rw [dictGet?_cons, dictGet?_cons, if_neg (fun he => h he.symm),
        if_neg (fun he => h he.symm)]
    · rw [show dictSet ((k1, v1) :: rest) k v = (k1, v1) :: dictSet rest k v from by
        simp [dictSet, h1]]
      rw [dictGet?_cons, dictGet?_cons]
      by_cases h2 : k1 = k'
      · simp [h2]
      · rw [if_neg h2, if_neg h2]
        exact ih

theorem dictGet?_dictSet_isSome {α : Type} (m : List (String × α)) (k k' : String)
    (v : α) (h : (dictGet? m k').isSome = true) :
    (dictGet? (dictSet m k v) k').isSome = true := by
  by_cases he : k' = k
  · subst he
    rw [dictGet?_dictSet_self]
    rfl
  · rw [dictGet?_dictSet_other m k k' v he]
    exact h

/-- Looking up a key set by a constant-value batch fold. -/
theorem dictGet?_foldl_const {α : Type} (g : String → String) (v : α) :
    ∀ (batch : List String) (m : List (String × α)) (key : String),
      dictGet? (batch.foldl (fun m f => dictSet m (g f) v) m) key =
        if key ∈ batch.map g then some v else dictGet? m key := by
  intro batch
  induction batch with
  | nil => intro m key; simp
  | cons b bs ih =>
    intro m key
    simp only [List.foldl_cons, List.map_cons, List.mem_cons]
    rw [ih]
    by_cases h1 : key ∈ bs.map g
    · rw [if_pos h1, if_pos (Or.inr h1)]
    · rw [if_neg h1]
      by_cases h2 : key = g b
      · subst h2
        rw [dictGet?_dictSet_self, if_pos (Or.inl rfl)]
      · rw [dictGet?_dictSet_other _ _ _ _ h2, if_neg (by tauto)]

/-! ## Coverage of the description map -/

theorem commit_dir_key_self (loads : Loads) (invoke : Oracle)
    (fbd : List (String × List FileInfo)) (descs : Descriptions) (k : String) :
    (dictGet? (commit_dir loads invoke fbd descs k).directories k).isSome = true := by
  simp only [commit_dir]
  rw [dictGet?_dictSet_self]
  rfl

theorem commit_dir_key_keeps (loads : Loads) (invoke : Oracle)
    (fbd : List (String × List FileInfo)) (descs : Descriptions) (k d : String)
    (h : (dictGet? descs.directories d).isSome = true) :
    (dictGet? (commit_dir loads invoke fbd descs k).directories d).isSome = true := by
  simp only [commit_dir]
  exact dictGet?_dictSet_isSome _ _ _ _ h

theorem foldl_commit_covers (loads : Loads) (invoke : Oracle)
    (fbd : List (String × List FileInfo)) :
    ∀ (keys : List String) (descs : Descriptions) (d : String),
      d ∈ keys ∨ (dictGet? descs.directories d).isSome = true →
      (dictGet? ((keys.foldl (commit_dir loads invoke fbd) descs)).directories d).isSome
        = true := by
  intro keys
  induction keys with
  | nil =>
    intro descs d h
    rcases h with h | h
    · cases h
    · exact h
  | cons k ks ih =>
    intro descs d h
    simp only [List.foldl_cons]
    apply ih
    rcases h with h | h
    · rcases List.mem_cons.mp h with rfl | h2
      · right; exact commit_dir_key_self loads invoke fbd descs d
      · left; exact h2
    · right; exact commit_dir_key_keeps loads invoke fbd descs k d h

theorem addToGroup_key_mono (m : List (String × List FileInfo)) (k : String)
    (f : FileInfo) (x : String) (h : x ∈ m.map (fun kv => kv.1)) :
    x ∈ (addToGroup m k f).map (fun kv => kv.1) := by
  induction m with
  | nil => cases h
  | cons kv rest ih =>
    obtain ⟨k1, fs⟩ := kv
    by_cases h1 : k1 = k
    · simpa [addToGroup, h1] using h
    · simp only [addToGroup, if_neg h1, List.map_cons, List.mem_cons] at h ⊢
      rcases h with h0 | h2
      · left; exact h0
      · right; exact ih h2

theorem addToGroup_key_self (m : List (String × List FileInfo)) (k : String)
    (f : FileInfo) :
    k ∈ (addToGroup m k f).map (fun kv => kv.1) := by
  induction m with
  | nil => simp [addToGroup]
  | cons kv rest ih =>
    obtain ⟨k1, fs⟩ := kv
    by_cases h1 : k1 = k
    · simp [addToGroup, h1]
    · simp only [addToGroup, if_neg h1, List.map_cons, List.mem_cons]
      right; exact ih

theorem foldl_addToGroup_key_mem :
    ∀ (fs : List FileInfo) (m : List (String × List FileInfo)) (x : String),
      (x ∈ m.map (fun kv => kv.1) ∨ ∃ f, f ∈ fs ∧ dirKeyOf f = x) →
      x ∈ (fs.foldl (fun m f => addToGroup m (dirKeyOf f) f) m).map (fun kv => kv.1) := by
  intro fs
  induction fs with
  | nil =>
    intro m x h
    rcases h with h | ⟨f, hf, _⟩
    · exact h
    · cases hf
  | cons g gs ih =>
    intro m x h
    simp only [List.foldl_cons]
    apply ih
    rcases h with h | ⟨f, hf, hkey⟩
    · left; exact addToGroup_key_mono m _ g x h
    · rcases List.mem_cons.mp hf with he | h2
      · left
        subst he
        subst hkey
        exact addToGroup_key_self m _ f
      · right; exact ⟨f, h2, hkey⟩

/-- Every directory that is either recorded in the model's flat directory
list or owns at least one grouped file receives a key in the directory
description map, whatever the collaborators do. -/
theorem gen_desc_key_covered (loads : Loads) (invoke : Oracle) (pi : ProjectInfo)
    (d : String)
    (h : d ∈ pi.directories ∨ ∃ f, f ∈ pi.files ∧ dirKeyOf f = d) :
    (dictGet? (generate_descriptions loads invoke pi).directories d).isSome = true := by
  simp only [generate_descriptions]
  apply foldl_commit_covers
  left
  rw [List.mem_append]
  rcases h with hdir | hfile
  · by_cases hm : d ∈ (List.map (fun kv => kv.1)
        (pi.files.foldl (fun m f => addToGroup m (dirKeyOf f) f) []))
    · left; exact hm
    · right
      rw [List.mem_filter]
      refine ⟨hdir, ?_⟩
      simp only [decide_eq_true_eq]
      intro hc
      exact hm (List.mem_of_elem_eq_true hc)
  · left
    exact foldl_addToGroup_key_mem pi.files [] d (Or.inr hfile)

/-- Claim C4: after a full run of `generate_descriptions`, every directory
relative path in `project_info["directories"]` appears as a key of the
directory description map, whether or not it owns any kept file. -/
theorem all_directories_described (loads : Loads) (invoke : Oracle)
    (pi : ProjectInfo) (d : String) (h : d ∈ pi.directories) :
    (dictGet? (generate_descriptions loads invoke pi).directories d).isSome = true :=
  gen_desc_key_covered loads invoke pi d (Or.inl h)

theorem all_directories_described_witness :
    (dictGet? (generate_descriptions (fun _ => none) (fun _ _ => .raises)
      { project_name := "p", root_path := "/p", struct := .nil, files := [],
        directories := ["src", "docs"], statistics := initStats }).directories
      "docs").isSome = true :=
  all_directories_described (fun _ => none) (fun _ _ => .raises)
    { project_name := "p", root_path := "/p", struct := .nil, files := [],
      directories := ["src", "docs"], statistics := initStats } "docs"
    (by decide)

/-! ## Claim C1: batch failures -/

theorem setBatchFallback_lookup (fds : List (String × Json)) (dir_path : String)
    (batch : List String) (fb : String) (f : String) (hf : f ∈ batch) :
    dictGet? (setBatchFallback fds dir_path batch fb) (dir_path ++ "/" ++ f) =
      some (Json.str fb) := by
  simp only [setBatchFallback]
  rw [dictGet?_foldl_const (fun f => dir_path ++ "/" ++ f) (Json.str fb) batch fds]
  rw [if_pos (List.mem_map_of_mem _ hf)]

/-- Claim C1 (amended): a batch whose model call raises, whose response
has no fenced JSON block, or whose extracted block fails to parse, sets
the directory description to the matching failure-category fallback
unconditionally -- overwriting any previously recorded description -- and
maps every file of the batch to the same fallback; and no failure aborts
the pipeline: every directory of the model, and every directory owning a
file, still receives a directory-description entry. -/
theorem batch_failure_fallback :
    (∀ (loads : Loads) (invoke : Oracle) (dir_path : String)
       (acc : Json × List (String × Json)) (batch : List String),
       invoke dir_path (joinBatch batch) = .raises →
       process_batch loads invoke dir_path acc batch =
         (Json.str fallback_unexpected,
          setBatchFallback acc.2 dir_path batch fallback_unexpected) ∧
       ∀ f ∈ batch,
         dictGet? (process_batch loads invoke dir_path acc batch).2
           (dir_path ++ "/" ++ f) = some (Json.str fallback_unexpected)) ∧
    (∀ (loads : Loads) (invoke : Oracle) (dir_path : String)
       (acc : Json × List (String × Json)) (batch : List String) (resp : String),
       invoke dir_path (joinBatch batch) = .returns resp →
       extract_json_from_markdown resp = none →
       process_batch loads invoke dir_path acc batch =
         (Json.str fallback_missing_json,
          setBatchFallback acc.2 dir_path batch fallback_missing_json) ∧
       ∀ f ∈ batch,
         dictGet? (process_batch loads invoke dir_path acc batch).2
           (dir_path ++ "/" ++ f) = some (Json.str fallback_missing_json)) ∧
    (∀ (loads : Loads) (invoke : Oracle) (dir_path : String)
       (acc : Json × List (String × Json)) (batch : List String)
       (resp ct : String),
       invoke dir_path (joinBatch batch) = .returns resp →
       extract_json_from_markdown resp = some ct →
       loads ct = none →
       process_batch loads invoke dir_path acc batch =
         (Json.str fallback_parse_error,
          setBatchFallback acc.2 dir_path batch fallback_parse_error) ∧
       ∀ f ∈ batch,
         dictGet? (process_batch loads invoke dir_path acc batch).2
           (dir_path ++ "/" ++ f) = some (Json.str fallback_parse_error)) ∧
    (∀ (loads : Loads) (invoke : Oracle) (pi : ProjectInfo) (d : String),
       d ∈ pi.directories ∨ (∃ f, f ∈ pi.files ∧ dirKeyOf f = d) →
       (dictGet? (generate_descriptions loads invoke pi).directories d).isSome = true) := by
  refine ⟨?_, ?_, ?_, ?_⟩
  · intro loads invoke dir_path acc batch hinv
    have he : process_batch loads invoke dir_path acc batch =
        (Json.str fallback_unexpected,
         setBatchFallback acc.2 dir_path batch fallback_unexpected) := by
      simp [process_batch, hinv]
    refine ⟨he, fun f hf => ?_⟩
    rw [he]
    exact setBatchFallback_lookup acc.2 dir_path batch fallback_unexpected f hf
  · intro loads invoke dir_path acc batch resp hinv hext
    have he : process_batch loads invoke dir_path acc batch =
        (Json.str fallback_missing_json,
         setBatchFallback acc.2 dir_path batch fallback_missing_json) := by
      simp [process_batch, hinv, hext]
    refine ⟨he, fun f hf => ?_⟩
    rw [he]
    exact setBatchFallback_lookup acc.2 dir_path batch fallback_missing_json f hf
  · intro loads invoke dir_path acc batch resp ct hinv hext hld
    have he : process_batch loads invoke dir_path acc batch =
        (Json.str fallback_parse_error,
         setBatchFallback acc.2 dir_path batch fallback_parse_error) := by
      simp [process_batch, hinv, hext, hld]
    refine ⟨he, fun f hf => ?_⟩
    rw [he]
    exact setBatchFallback_lookup acc.2 dir_path batch fallback_parse_error f hf
  · intro loads invoke pi d h
    exact gen_desc_key_covered loads invoke pi d h

theorem batch_failure_fallback_witness :
    (process_batch (fun _ => none) (fun _ _ => .returns "the model refused")
        "root" (Json.str "previously recorded", []) ["a.py"] =
      (Json.str fallback_missing_json,
       setBatchFallback [] "root" ["a.py"] fallback_missing_json)) ∧
    dictGet? (process_batch (fun _ => none) (fun _ _ => .returns "the model refused")
        "root" (Json.str "previously recorded", []) ["a.py"]).2
      ("root" ++ "/" ++ "a.py") = some (Json.str fallback_missing_json) := by
  have h := batch_failure_fallback.2.1 (fun _ => none)
    (fun _ _ => .returns "the model refused") "root"
    (Json.str "previously recorded", []) ["a.py"] "the model refused" rfl (by decide)
  exact ⟨h.1, h.2 "a.py" (by decide)⟩

/-- Eleven code files in the project root: two batches. -/
def c1_names : List String :=
  ["a.py", "b.py", "c.py", "d.py", "e.py", "f.py", "g.py", "h.py", "i.py",
   "j.py", "k.py"]

def c1_mkFi (nm : String) : FileInfo :=
  { name := nm, path := "/p/" ++ nm, data := .ok 1 ".py" true none none,
    relative_path := nm }

def c1_pi : ProjectInfo :=
  { project_name := "p", root_path := "/p", struct := .nil,
    files := c1_names.map c1_mkFi, directories := [], statistics := initStats }

/-- The same project truncated to the first batch. -/
def c1_pi10 : ProjectInfo :=
  { c1_pi with files := (c1_names.take 10).map c1_mkFi }

def c1_content : String :=
  "\x7b\"directory_description\": \"Good stuff\", \"files\": \x7b\x7d\x7d"

/-- `json.loads` on the well-formed payload of the first batch. -/
def c1_loads : Loads := fun s =>
  if s = c1_content then
    some (.objCons "directory_description" (.str "Good stuff")
      (.objCons "files" .objNil .objNil))
  else none

/-- The model chain answers the first batch with a well-formed fenced
block and the second batch with prose containing no fenced block. -/
def c1_invoke : Oracle := fun _ fl =>
  if fl = joinComma (c1_names.take 10) then
    .returns ("```json\n" ++ c1_content ++ "\n```")
  else .returns "the model refused to answer"

/-- Counterexample to claim C1 as stated: on the ten-file prefix the first
batch records the directory description "Good stuff", yet with the
eleventh file present the failing second batch overwrites it with the
missing-JSON fallback -- the fallback is *not* applied only when no
description has been recorded. -/
theorem batch_failure_overwrites_counterexample :
    dictGet? (generate_descriptions c1_loads c1_invoke c1_pi10).directories "root" =
      some (Json.str "Good stuff") ∧
    dictGet? (generate_descriptions c1_loads c1_invoke c1_pi).directories "root" =
      some (Json.str fallback_missing_json) ∧
    Json.str fallback_missing_json ≠ Json.str "Good stuff" := by
  refine ⟨by decide, by decide, by decide⟩

/-! ## Claim C3: well-formed batches -/

/-- Build the `files` JSON object of a response from name/description
pairs. -/
def objOfPairs : List (String × String) → Json
  | [] => .objNil
  | (k, v) :: rest => .objCons k (.str v) (objOfPairs rest)

/-- The collaborator answers the batch `b` with text containing a fenced
JSON block that parses to
`{"directory_description": dd, "files": {name: desc, ...}}`. -/
def wellFormedBatch (loads : Loads) (invoke : Oracle) (dir_path : String)
    (b : List String) (dd : String) (fs : List (String × String)) : Prop :=
  ∃ resp ct, invoke dir_path (joinBatch b) = .returns resp ∧
    extract_json_from_markdown resp = some ct ∧
    loads ct = some (.objCons "directory_description" (.str dd)
      (.objCons "files" (objOfPairs fs) .objNil))

/-- Spec side: the adopted directory description is the first non-empty
`directory_description` over the batches (the empty string when none). -/
def specAdoptedDescription (dds : List String) : Json :=
  .str ((dds.filter (fun s => s != "")).headD "")

/-- Spec side: the per-file description map, keyed `directory/filename`,
merged across batches in order. -/
def specMergedFiles (dir_path : String) (pairs : List (String × String)) :
    List (String × Json) :=
  pairs.foldl (fun m p => dictSet m (dir_path ++ "/" ++ p.1) (Json.str p.2)) []

theorem objPairs_objOfPairs : ∀ fs : List (String × String),
    objPairs (objOfPairs fs) = fs.map (fun p => (p.1, Json.str p.2))
  | [] => rfl
  | (k, v) :: rest => by
    simp [objOfPairs, objPairs, objPairs_objOfPairs rest]

theorem process_batch_wf (loads : Loads) (invoke : Oracle) (dir_path : String)
    (b : List String) (dd : String) (fs : List (String × String))
    (s0 : String) (m0 : List (String × Json))
    (h : wellFormedBatch loads invoke dir_path b dd fs) :
    process_batch loads invoke dir_path (Json.str s0, m0) b =
      (Json.str (if s0 = "" then dd else s0),
       fs.foldl (fun m p => dictSet m (dir_path ++ "/" ++ p.1) (Json.str p.2)) m0) := by
  obtain ⟨resp, ct, hinv, hext, hld⟩ := h
  cases fs with
  | nil =>
    by_cases hs : s0 = "" <;>
      simp [process_batch, hinv, hext, hld, objGet, jsonTruthy, objOfPairs, hs]
  | cons p ps =>
    obtain ⟨pk, pv⟩ := p
    by_cases hs : s0 = "" <;>
      simp [process_batch, hinv, hext, hld, objGet, jsonTruthy, objOfPairs,
        objPairs, objPairs_objOfPairs, List.foldl_map, hs]

theorem foldl_process_wf (loads : Loads) (invoke : Oracle) (dir_path : String)
    (ddOf : List String → String) (fsOf : List String → List (String × String)) :
    ∀ (bs : List (List String)) (s0 : String) (m0 : List (String × Json)),
      (∀ b ∈ bs, wellFormedBatch loads invoke dir_path b (ddOf b) (fsOf b)) →
      bs.foldl (process_batch loads invoke dir_path) (Json.str s0, m0) =
        (Json.str (((s0 :: bs.map ddOf).filter (fun s => s != "")).headD ""),
         ((bs.map fsOf).flatten).foldl
           (fun m p => dictSet m (dir_path ++ "/" ++ p.1) (Json.str p.2)) m0) := by
  intro bs
  induction bs with
  | nil =>
    intro s0 m0 _
    by_cases hs : s0 = "" <;> simp [hs]
  | cons b bs' ih =>
    intro s0 m0 hwf
    simp only [List.foldl_cons]
    rw [process_batch_wf loads invoke dir_path b (ddOf b) (fsOf b) s0 m0
      (hwf b (List.mem_cons_self _ _))]
    rw [ih (if s0 = "" then ddOf b else s0) _
      (fun b2 hb2 => hwf b2 (List.mem_cons_of_mem _ hb2))]
    refine Prod.ext ?_ ?_
    · show Json.str _ = Json.str _
      by_cases hs : s0 = "" <;> simp [hs, List.filter_cons]
    · show _ = _
      simp [List.foldl_append]

/-- The whole per-directory loop under well-formed responses. -/
theorem describe_dir_wf (loads : Loads) (invoke : Oracle) (dir_path : String)
    (file_list : List String)
    (ddOf : List String → String) (fsOf : List String → List (String × String))
    (h : ∀ b ∈ chunk10 file_list, wellFormedBatch loads invoke dir_path b (ddOf b) (fsOf b)) :
    describe_dir loads invoke dir_path file_list =
      (specAdoptedDescription ((chunk10 file_list).map ddOf),
       specMergedFiles dir_path (((chunk10 file_list).map fsOf).flatten)) := by
  simp only [describe_dir, specAdoptedDescription, specMergedFiles]
  rw [foldl_process_wf loads invoke dir_path ddOf fsOf (chunk10 file_list) "" [] h]
  simp [List.filter_cons]

theorem chunk10_flatten : ∀ l : List String, (chunk10 l).flatten = l := by
  intro l
  induction l using chunk10.induct <;> simp_all [chunk10]

theorem chunk10_batch_le : ∀ (l : List String), ∀ b ∈ chunk10 l, b.length ≤ 10
  | [] => by intro b hb; cases hb
  | a :: b :: c :: d :: e :: f :: g :: h :: i :: j :: rest => by
    intro x hx
    rcases List.mem_cons.mp hx with h0 | hx2
    · subst h0; simp
    · exact chunk10_batch_le rest x hx2
  | [a] => by intro x hx; have hx2 := List.mem_singleton.mp hx; subst hx2; simp
  | [a, b] => by intro x hx; have hx2 := List.mem_singleton.mp hx; subst hx2; simp
  | [a, b, c] => by intro x hx; have hx2 := List.mem_singleton.mp hx; subst hx2; simp
  | [a, b, c, d] => by
    intro x hx; have hx2 := List.mem_singleton.mp hx; subst hx2; simp
  | [a, b, c, d, e] => by
    intro x hx; have hx2 := List.mem_singleton.mp hx; subst hx2; simp
  | [a, b, c, d, e, f] => by
    intro x hx; have hx2 := List.mem_singleton.mp hx; subst hx2; simp
  | [a, b, c, d, e, f, g] => by
    intro x hx; have hx2 := List.mem_singleton.mp hx; subst hx2; simp
  | [a, b, c, d, e, f, g, h] => by
    intro x hx; have hx2 := List.mem_singleton.mp hx; subst hx2; simp
  | [a, b, c, d, e, f, g, h, i] => by
    intro x hx; have hx2 := List.mem_singleton.mp hx; subst hx2; simp

/-! ## Re-inserting a freshly built dict is the identity -/

/-- The key sequence of a dict. -/
def keysOf {α : Type} (m : List (String × α)) : List String := m.map Prod.fst

theorem keysOf_dictSet {α : Type} (m : List (String × α)) (k : String) (v : α) :
    keysOf (dictSet m k v) =
      if k ∈ keysOf m then keysOf m else keysOf m ++ [k] := by
  induction m with
  | nil => simp [dictSet, keysOf]
  | cons kv rest ih =>
    obtain ⟨k1, v1⟩ := kv
    by_cases h : k1 = k
    · subst h
      simp [dictSet, keysOf]
    · simp only [dictSet, if_neg h, keysOf, List.map_cons] at ih ⊢
      rw [ih]
      have hne : ¬ k = k1 := fun he => h he.symm
      by_cases h2 : k ∈ List.map Prod.fst rest
      · rw [if_pos h2, if_pos (by simp [List.mem_cons, h2])]
      · rw [if_neg h2, if_neg (by simp [List.mem_cons, hne, h2])]
        simp

theorem keysOf_dictSet_nodup {α : Type} (m : List (String × α)) (k : String) (v : α)
    (h : (keysOf m).Nodup) : (keysOf (dictSet m k v)).Nodup := by
  rw [keysOf_dictSet]
  by_cases h2 : k ∈ keysOf m
  · rw [if_pos h2]; exact h
  · rw [if_neg h2]
    simp [List.nodup_append, h, h2]

theorem nodup_foldl_dictSet {β : Type} (g : β → String) (w : β → Json) :
    ∀ (ps : List β) (m : List (String × Json)), (keysOf m).Nodup →
      (keysOf (ps.foldl (fun m p => dictSet m (g p) (w p)) m)).Nodup := by
  intro ps
  induction ps with
  | nil => intro m h; exact h
  | cons p ps' ih =>
    intro m h
    simp only [List.foldl_cons]
    exact ih _ (keysOf_dictSet_nodup m (g p) (w p) h)

theorem dictSet_append_new {α : Type} (m : List (String × α)) (k : String) (v : α)
    (h : k ∉ keysOf m) : dictSet m k v = m ++ [(k, v)] := by
  induction m with
  | nil => rfl
  | cons kv rest ih =>
    obtain ⟨k1, v1⟩ := kv
    have h1 : k1 ≠ k := by
      intro he
      exact h (by simp [keysOf, he])
    simp only [dictSet, if_neg h1, List.cons_append]
    rw [ih (fun h2 => h (by simp [keysOf] at h2 ⊢; right; exact h2))]

theorem reinsert_eq {α : Type} :
    ∀ (m acc : List (String × α)), (keysOf (acc ++ m)).Nodup →
      m.foldl (fun a kv => dictSet a kv.1 kv.2) acc = acc ++ m := by
  intro m
  induction m with
  | nil => intro acc _; simp
  | cons kv m' ih =>
    intro acc hnd
    have hsplit : keysOf (acc ++ kv :: m') = keysOf acc ++ kv.1 :: keysOf m' := by
      simp [keysOf]
    rw [hsplit] at hnd
    have hk : kv.1 ∉ keysOf acc := by
      rw [List.nodup_append] at hnd
      intro hmem
      exact hnd.2.2 hmem (List.mem_cons_self _ _)
    simp only [List.foldl_cons]
    rw [dictSet_append_new acc kv.1 kv.2 hk]
    have hnd2 : (keysOf ((acc ++ [kv]) ++ m')).Nodup := by
      have : (acc ++ [kv]) ++ m' = acc ++ kv :: m' := by simp
      rw [this, hsplit]
      exact hnd
    have := ih (acc ++ [kv]) hnd2
    rw [show (fun (a : List (String × α)) (kv : String × α) => dictSet a kv.1 kv.2) =
      fun a kv => dictSet a kv.1 kv.2 from rfl] at this
    rw [this]
    simp

/-! ## Grouping a single-directory project -/

theorem foldl_addToGroup_root :
    ∀ (fs : List FileInfo) (acc : List FileInfo),
      (∀ f ∈ fs, dirKeyOf f = "root") →
      fs.foldl (fun m f => addToGroup m (dirKeyOf f) f) [("root", acc)] =
        [("root", acc ++ fs)] := by
  intro fs
  induction fs with
  | nil => intro acc _; simp
  | cons f fs' ih =>
    intro acc hall
    simp only [List.foldl_cons]
    rw [hall f (List.mem_cons_self _ _)]
    rw [show addToGroup [("root", acc)] "root" f = [("root", acc ++ [f])] from by
      simp [addToGroup]]
    rw [ih (acc ++ [f]) (fun g hg => hall g (List.mem_cons_of_mem _ hg))]
    simp

theorem single_dir_grouping (fs : List FileInfo) (f0 : FileInfo) (fs' : List FileInfo)
    (hfs : fs = f0 :: fs') (hall : ∀ f ∈ fs, dirKeyOf f = "root") :
    fs.foldl (fun m f => addToGroup m (dirKeyOf f) f) [] = [("root", fs)] := by
  subst hfs
  simp only [List.foldl_cons]
  rw [hall f0 (List.mem_cons_self _ _)]
  rw [show addToGroup [] "root" f0 = [("root", [f0])] from rfl]
  rw [foldl_addToGroup_root fs' [f0] (fun g hg => hall g (List.mem_cons_of_mem _ hg))]
  simp

/-- Claim C3 (amended): under a collaborator whose every batch response
carries a well-formed fenced JSON block of shape
`{directory_description, files}`, the per-directory loop produces exactly
the per-file descriptions of the blocks keyed `directory/filename`; each
directory's files are split into order-preserving batches of at most 10;
and the adopted directory description is that of the first batch whose
`directory_description` is non-empty (an empty recorded description is
replaced by a later batch, so it is not always the first batch's). -/
theorem well_formed_batches_merge :
    (∀ (loads : Loads) (invoke : Oracle) (dir_path : String) (file_list : List String)
       (ddOf : List String → String) (fsOf : List String → List (String × String)),
       (∀ b ∈ chunk10 file_list,
          wellFormedBatch loads invoke dir_path b (ddOf b) (fsOf b)) →
       describe_dir loads invoke dir_path file_list =
         (specAdoptedDescription ((chunk10 file_list).map ddOf),
          specMergedFiles dir_path (((chunk10 file_list).map fsOf).flatten))) ∧
    (∀ file_list : List String, (chunk10 file_list).flatten = file_list ∧
       ∀ b ∈ chunk10 file_list, b.length ≤ 10) ∧
    (∀ (loads : Loads) (invoke : Oracle) (pi : ProjectInfo)
       (ddOf : List String → String) (fsOf : List String → List (String × String))
       (f0 : FileInfo) (fs' : List FileInfo),
       pi.files = f0 :: fs' →
       pi.directories = [] →
       (∀ f ∈ pi.files, dirKeyOf f = "root") →
       (∀ b ∈ chunk10 (pi.files.map (fun f => f.name)),
          wellFormedBatch loads invoke "root" b (ddOf b) (fsOf b)) →
       generate_descriptions loads invoke pi =
         { directories := [("root", specAdoptedDescription
             ((chunk10 (pi.files.map (fun f => f.name))).map ddOf))],
           files := specMergedFiles "root"
             (((chunk10 (pi.files.map (fun f => f.name))).map fsOf).flatten) }) := by
  refine ⟨?_, ?_, ?_⟩
  · intro loads invoke dir_path file_list ddOf fsOf h
    exact describe_dir_wf loads invoke dir_path file_list ddOf fsOf h
  · intro file_list
    exact ⟨chunk10_flatten file_list, chunk10_batch_le file_list⟩
  · intro loads invoke pi ddOf fsOf f0 fs' hfs hdirs hall hwf
    simp only [generate_descriptions]
    rw [single_dir_grouping pi.files f0 fs' hfs hall, hdirs]
    simp only [List.map_cons, List.map_nil, List.filter_nil, List.append_nil,
      List.foldl_cons, List.foldl_nil]
    simp only [commit_dir]
    rw [show (List.find? (fun kv => kv.1 == "root") [(("root" : String), pi.files)]) =
      some ("root", pi.files) from by simp]
    simp only [Option.map_some', Option.getD_some]
    rw [describe_dir_wf loads invoke "root" (pi.files.map (fun f => f.name)) ddOf fsOf hwf]
    have hnodup : (keysOf (([] : List (String × Json)) ++ specMergedFiles "root"
        (((chunk10 (pi.files.map (fun f => f.name))).map fsOf).flatten))).Nodup := by
      simp only [List.nil_append]
      exact nodup_foldl_dictSet (fun (p : String × String) => "root" ++ "/" ++ p.1)
        (fun (p : String × String) => Json.str p.2) _ [] (by simp [keysOf])
    rw [reinsert_eq _ [] hnodup]
    rfl

def c3w_content : String :=
  "\x7b\"directory_description\": \"Root dir\", \"files\": \x7b\"m.py\": \"main module\"\x7d\x7d"

def c3w_loads : Loads := fun s =>
  if s = c3w_content then
    some (.objCons "directory_description" (.str "Root dir")
      (.objCons "files" (objOfPairs [("m.py", "main module")]) .objNil))
  else none

def c3w_invoke : Oracle := fun _ _ => .returns ("```json\n" ++ c3w_content ++ "\n```")

theorem well_formed_batches_merge_witness :
    describe_dir c3w_loads c3w_invoke "root" ["m.py"] =
      (specAdoptedDescription ["Root dir"],
       specMergedFiles "root" [("m.py", "main module")]) := by
  have h := well_formed_batches_merge.1 c3w_loads c3w_invoke "root" ["m.py"]
    (fun _ => "Root dir") (fun _ => [("m.py", "main module")])
    (by
      intro b hb
      have hb2 : b = ["m.py"] := List.mem_singleton.mp hb
      subst hb2
      exact ⟨_, c3w_content, rfl, by decide, by decide⟩)
  exact h

/-- Eleven code files in the project root: two batches. -/
def c3_names : List String :=
  ["a.py", "b.py", "c.py", "d.py", "e.py", "f.py", "g.py", "h.py", "i.py",
   "j.py", "k.py"]

def c3_mkFi (nm : String) : FileInfo :=
  { name := nm, path := "/p/" ++ nm, data := .ok 1 ".py" true none none,
    relative_path := nm }

def c3_pi : ProjectInfo :=
  { project_name := "p", root_path := "/p", struct := .nil,
    files := c3_names.map c3_mkFi, directories := [], statistics := initStats }

def c3_content1 : String :=
  "\x7b\"directory_description\": \"\", \"files\": \x7b\x7d\x7d"

def c3_content2 : String :=
  "\x7b\"directory_description\": \"B\", \"files\": \x7b\x7d\x7d"

/-- `json.loads` on the two well-formed payloads. -/
def c3_loads : Loads := fun s =>
  if s = c3_content1 then
    some (.objCons "directory_description" (.str "")
      (.objCons "files" .objNil .objNil))
  else if s = c3_content2 then
    some (.objCons "directory_description" (.str "B")
      (.objCons "files" .objNil .objNil))
  else none

/-- Both batches receive well-formed fenced blocks; the first one's
`directory_description` is the empty string. -/
def c3_invoke : Oracle := fun _ fl =>
  if fl = joinComma (c3_names.take 10) then
    .returns ("```json\n" ++ c3_content1 ++ "\n```")
  else .returns ("```json\n" ++ c3_content2 ++ "\n```")

/-- Counterexample to claim C3 as stated: every batch returns a
well-formed fenced JSON block, the first batch's `directory_description`
is `""`, yet the adopted directory description is the second batch's
`"B"` -- not the first batch's. -/
theorem first_batch_adoption_counterexample :
    c3_loads c3_content1 = some (.objCons "directory_description" (.str "")
      (.objCons "files" .objNil .objNil)) ∧
    dictGet? (generate_descriptions c3_loads c3_invoke c3_pi).directories "root" =
      some (Json.str "B") ∧
    Json.str "B" ≠ Json.str "" := by
  refine ⟨by decide, by decide, by decide⟩

/-! ## The kept-file count and the 500-file ceiling -/

/-- The number of files the scan visits: non-ignored files of the listing,
plus, for each non-ignored readable subdirectory, the files its own listing
contributes.  This is exactly the number of `total_files` increments
`scan_directory` performs on the listing. -/
def keptCount (ig : List String) : FS → Nat
  | .nil => 0
  | .file name _ _ rest =>
    (if should_ignore name ig then 0 else 1) + keptCount ig rest
  | .dir name readable entries rest =>
    (if should_ignore name ig then 0
     else if readable then keptCount ig entries else 0) + keptCount ig rest

/-- The kept-file contribution of a detached entry (its `rest` ignored). -/
def keptHead (ig : List String) : FS → Nat
  | .nil => 0
  | .file name _ _ _ => if should_ignore name ig then 0 else 1
  | .dir name readable entries _ =>
    if should_ignore name ig then 0
    else if readable then keptCount ig entries else 0

theorem keptCount_withRest (ig : List String) (e r : FS) :
    keptCount ig (withRest e r) = keptHead ig e + keptCount ig r := by
  cases e <;> simp [withRest, keptHead, keptCount]

theorem keptCount_insertFS (ig : List String) (e : FS) : ∀ l : FS,
    keptCount ig (insertFS e l) = keptHead ig e + keptCount ig l
  | .nil => by simp [insertFS, keptCount_withRest, keptCount]
  | .file n s c rest => by
    simp only [insertFS]
    by_cases h : charListLt n.data (headName e).data
    · rw [if_pos h]
      simp only [keptCount, keptCount_insertFS ig e rest]
      omega
    · rw [if_neg h, keptCount_withRest]
  | .dir n rd es rest => by
    simp only [insertFS]
    by_cases h : charListLt n.data (headName e).data
    · rw [if_pos h]
      simp only [keptCount, keptCount_insertFS ig e rest]
      omega
    · rw [if_neg h, keptCount_withRest]

theorem keptCount_sortFS (ig : List String) : ∀ l : FS,
    keptCount ig (sortFS l) = keptCount ig l
  | .nil => rfl
  | .file n s c rest => by
    simp [sortFS, keptCount_insertFS, keptHead, keptCount, keptCount_sortFS ig rest]
  | .dir n rd es rest => by
    simp [sortFS, keptCount_insertFS, keptHead, keptCount, keptCount_sortFS ig rest]

/-- The node-count contribution of a detached entry. -/
def fsHead : FS → Nat
  | .nil => 0
  | .file _ _ _ _ => 1
  | .dir _ _ es _ => 1 + fsSize es

theorem fsSize_withRest (e r : FS) :
    fsSize (withRest e r) = fsHead e + fsSize r := by
  cases e <;> simp [withRest, fsHead, fsSize]

theorem fsSize_insertFS (e : FS) : ∀ l : FS,
    fsSize (insertFS e l) = fsHead e + fsSize l
  | .nil => by simp [insertFS, fsSize_withRest, fsSize]
  | .file n s c rest => by
    simp only [insertFS]
    by_cases h : charListLt n.data (headName e).data
    · rw [if_pos h]
      simp only [fsSize, fsSize_insertFS e rest]
      omega
    · rw [if_neg h, fsSize_withRest]
  | .dir n rd es rest => by
    simp only [insertFS]
    by_cases h : charListLt n.data (headName e).data
    · rw [if_pos h]
      simp only [fsSize, fsSize_insertFS e rest]
      omega
    · rw [if_neg h, fsSize_withRest]

theorem fsSize_sortFS : ∀ l : FS, fsSize (sortFS l) = fsSize l
  | .nil => rfl
  | .file n s c rest => by
    simp only [sortFS, fsSize_insertFS, fsHead, fsSize, fsSize_sortFS rest]
  | .dir n rd es rest => by
    simp only [sortFS, fsSize_insertFS, fsHead, fsSize, fsSize_sortFS rest]

/-- The `FileInfo` the scan builds for a kept file. -/
def fileOf (ap rp name : String) (sz : Option Nat) (ct : Option String) : FileInfo :=
  { get_file_info (ap ++ "/" ++ name) name sz ct with
    relative_path := if rp = "" then name else rp ++ "/" ++ name }

/-- The state after recording a kept file. -/
def fileSt (ap rp name : String) (sz : Option Nat) (ct : Option String)
    (st : ScanState) : ScanState :=
  { st with
    files := st.files ++ [fileOf ap rp name sz ct],
    statistics := { st.statistics with
      total_files := st.statistics.total_files + 1,
      total_size := st.statistics.total_size + fiSize (fileOf ap rp name sz ct),
      file_types := if fiExt (fileOf ap rp name sz ct) ≠ "" then
          bumpType st.statistics.file_types (fiExt (fileOf ap rp name sz ct))
        else st.statistics.file_types,
      code_files := if fiIsCode (fileOf ap rp name sz ct) then
          st.statistics.code_files + 1 else st.statistics.code_files,
      languages := if fiIsCode (fileOf ap rp name sz ct) then
          (match dictGet? lang_map (fiExt (fileOf ap rp name sz ct)) with
           | some lang => addLang st.statistics.languages lang
           | none => st.statistics.languages)
        else st.statistics.languages } }

/-- The state after recording a kept directory. -/
def dirSt (rp name : String) (st : ScanState) : ScanState :=
  { st with
    directories := st.directories ++ [if rp = "" then name else rp ++ "/" ++ name],
    statistics := { st.statistics with
      total_directories := st.statistics.total_directories + 1 } }

theorem fileSt_total (ap rp name : String) (sz : Option Nat) (ct : Option String)
    (st : ScanState) :
    (fileSt ap rp name sz ct st).statistics.total_files =
      st.statistics.total_files + 1 := rfl

theorem dirSt_total (rp name : String) (st : ScanState) :
    (dirSt rp name st).statistics.total_files = st.statistics.total_files := rfl

theorem scan_list_ign_file (fuel : Nat) (ig : List String) (ap rp name : String)
    (sz : Option Nat) (ct : Option String) (rest : FS) (st : ScanState)
    (hig : should_ignore name ig = true) :
    scan_list (fuel + 1) ig ap rp (.file name sz ct rest) st =
      scan_list fuel ig ap rp rest st := by
  simp [scan_list, hig]

theorem scan_list_ign_dir (fuel : Nat) (ig : List String) (ap rp name : String)
    (rd : Bool) (entries rest : FS) (st : ScanState)
    (hig : should_ignore name ig = true) :
    scan_list (fuel + 1) ig ap rp (.dir name rd entries rest) st =
      scan_list fuel ig ap rp rest st := by
  simp [scan_list, hig]

theorem scan_list_file_over (fuel : Nat) (ig : List String) (ap rp name : String)
    (sz : Option Nat) (ct : Option String) (rest : FS) (st : ScanState)
    (hig : ¬ should_ignore name ig = true)
    (hcap : st.statistics.total_files + 1 > 500) :
    scan_list (fuel + 1) ig ap rp (.file name sz ct rest) st =
      .error (.valueError tooManyMsg) := by
  simp [scan_list, hig, hcap]

theorem scan_list_file_eq (fuel : Nat) (ig : List String) (ap rp name : String)
    (sz : Option Nat) (ct : Option String) (rest : FS) (st : ScanState)
    (hig : ¬ should_ignore name ig = true)
    (hcap : st.statistics.total_files + 1 ≤ 500) :
    scan_list (fuel + 1) ig ap rp (.file name sz ct rest) st =
      match scan_list fuel ig ap rp rest (fileSt ap rp name sz ct st) with
      | .error e => .error e
      | .ok (its, st2) =>
        .ok (.fileI name (if rp = "" then name else rp ++ "/" ++ name)
          (fiSize (fileOf ap rp name sz ct)) (fiExt (fileOf ap rp name sz ct))
          its, st2) := by
  simp [scan_list, hig, show ¬ (st.statistics.total_files + 1 > 500) from by omega,
    fileSt, fileOf]

theorem scan_list_dir_eq_true (fuel : Nat) (ig : List String) (ap rp name : String)
    (entries rest : FS) (st : ScanState)
    (hig : ¬ should_ignore name ig = true) :
    scan_list (fuel + 1) ig ap rp (.dir name true entries rest) st =
      match scan_list fuel ig (ap ++ "/" ++ name)
          (if rp = "" then name else rp ++ "/" ++ name) (sortFS entries)
          (dirSt rp name st) with
      | .error e => .error e
      | .ok (sub, st2) =>
        match scan_list fuel ig ap rp rest st2 with
        | .error e => .error e
        | .ok (its, st3) =>
          .ok (.dirI name (if rp = "" then name else rp ++ "/" ++ name) sub its,
            st3) := by
  simp [scan_list, hig, dirSt]

theorem scan_list_dir_eq_false (fuel : Nat) (ig : List String) (ap rp name : String)
    (entries rest : FS) (st : ScanState)
    (hig : ¬ should_ignore name ig = true) :
    scan_list (fuel + 1) ig ap rp (.dir name false entries rest) st =
      match scan_list fuel ig ap rp rest (dirSt rp name st) with
      | .error e => .error e
      | .ok (its, st2) =>
        .ok (.dirI name (if rp = "" then name else rp ++ "/" ++ name) .nil its,
          st2) := by
  simp [scan_list, hig, dirSt]

/-- Under the ceiling the scan succeeds, and `total_files` grows by exactly
the kept-file count of the listing. -/
theorem scan_list_ok (ig : List String) : ∀ (fuel : Nat) (ap rp : String) (l : FS)
    (st : ScanState), fsSize l < fuel →
    st.statistics.total_files + keptCount ig l ≤ 500 →
    ∃ items st2, scan_list fuel ig ap rp l st = .ok (items, st2) ∧
      st2.statistics.total_files = st.statistics.total_files + keptCount ig l := by
  intro fuel
  induction fuel with
  | zero => exact fun ap rp l st hsz _ => absurd hsz (Nat.not_lt_zero _)
  | succ fuel ih =>
    intro ap rp l st hsz hle
    cases l with
    | nil => exact ⟨.nil, st, rfl, by simp [keptCount]⟩
    | file name sz ct rest =>
      simp only [fsSize] at hsz
      by_cases hig : should_ignore name ig = true
      · have hk : keptCount ig (.file name sz ct rest) = keptCount ig rest := by
          simp [keptCount, hig]
        rw [hk] at hle ⊢
        rw [scan_list_ign_file fuel ig ap rp name sz ct rest st hig]
        exact ih ap rp rest st (by omega) hle
      · have hk : keptCount ig (.file name sz ct rest) = 1 + keptCount ig rest := by
          simp [keptCount, hig]
        rw [hk] at hle ⊢
        rw [scan_list_file_eq fuel ig ap rp name sz ct rest st hig (by omega)]
        obtain ⟨its, st2, h2, t2⟩ := ih ap rp rest (fileSt ap rp name sz ct st)
          (by omega) (by rw [fileSt_total]; omega)
        refine ⟨.fileI name (if rp = "" then name else rp ++ "/" ++ name)
          (fiSize (fileOf ap rp name sz ct)) (fiExt (fileOf ap rp name sz ct)) its,
          st2, ?_, ?_⟩
        · simp only [h2]
        · rw [t2, fileSt_total]
          omega
    | dir name rd entries rest =>
      simp only [fsSize] at hsz
      by_cases hig : should_ignore name ig = true
      · have hk : keptCount ig (.dir name rd entries rest) = keptCount ig rest := by
          simp [keptCount, hig]
        rw [hk] at hle ⊢
        rw [scan_list_ign_dir fuel ig ap rp name rd entries rest st hig]
        exact ih ap rp rest st (by omega) hle
      · cases rd with
        | false =>
          have hk : keptCount ig (.dir name false entries rest) = keptCount ig rest := by
            simp [keptCount, hig]
          rw [hk] at hle ⊢
          rw [scan_list_dir_eq_false fuel ig ap rp name entries rest st hig]
          obtain ⟨its, st2, h2, t2⟩ := ih ap rp rest (dirSt rp name st) (by omega)
            (by rw [dirSt_total]; omega)
          refine ⟨.dirI name (if rp = "" then name else rp ++ "/" ++ name) .nil its,
            st2, ?_, ?_⟩
          · simp only [h2]
          · rw [t2, dirSt_total]
        | true =>
          have hk : keptCount ig (.dir name true entries rest) =
              keptCount ig entries + keptCount ig rest := by
            simp [keptCount, hig]
          rw [hk] at hle ⊢
          rw [scan_list_dir_eq_true fuel ig ap rp name entries rest st hig]
          obtain ⟨sub, st2, h2, t2⟩ := ih (ap ++ "/" ++ name)
            (if rp = "" then name else rp ++ "/" ++ name) (sortFS entries)
            (dirSt rp name st) (by rw [fsSize_sortFS]; omega)
            (by rw [dirSt_total, keptCount_sortFS]; omega)
          obtain ⟨its, st3, h3, t3⟩ := ih ap rp rest st2 (by omega)
            (by rw [t2, dirSt_total, keptCount_sortFS]; omega)
          refine ⟨.dirI name (if rp = "" then name else rp ++ "/" ++ name) sub its,
            st3, ?_, ?_⟩
          · simp only [h2, h3]
          · rw [t3, t2, dirSt_total, keptCount_sortFS]
            omega

/-- Once the running total would pass 500, the scan aborts with the
`ValueError` carrying the fixed overflow message. -/
theorem scan_list_overflow (ig : List String) : ∀ (fuel : Nat) (ap rp : String)
    (l : FS) (st : ScanState), fsSize l < fuel →
    st.statistics.total_files ≤ 500 →
    500 < st.statistics.total_files + keptCount ig l →
    scan_list fuel ig ap rp l st = .error (.valueError tooManyMsg) := by
  intro fuel
  induction fuel with
  | zero => exact fun ap rp l st hsz _ _ => absurd hsz (Nat.not_lt_zero _)
  | succ fuel ih =>
    intro ap rp l st hsz hst hover
    cases l with
    | nil =>
      simp [keptCount] at hover
      omega
    | file name sz ct rest =>
      simp only [fsSize] at hsz
      by_cases hig : should_ignore name ig = true
      · have hk : keptCount ig (.file name sz ct rest) = keptCount ig rest := by
          simp [keptCount, hig]
        rw [hk] at hover
        rw [scan_list_ign_file fuel ig ap rp name sz ct rest st hig]
        exact ih ap rp rest st (by omega) hst hover
      · have hk : keptCount ig (.file name sz ct rest) = 1 + keptCount ig rest := by
          simp [keptCount, hig]
        rw [hk] at hover
        by_cases hcap : st.statistics.total_files + 1 > 500
        · exact scan_list_file_over fuel ig ap rp name sz ct rest st hig hcap
        · rw [scan_list_file_eq fuel ig ap rp name sz ct rest st hig (by omega)]
          rw [ih ap rp rest (fileSt ap rp name sz ct st) (by omega)
            (by rw [fileSt_total]; omega) (by rw [fileSt_total]; omega)]
    | dir name rd entries rest =>
      simp only [fsSize] at hsz
      by_cases hig : should_ignore name ig = true
      · have hk : keptCount ig (.dir name rd entries rest) = keptCount ig rest := by
          simp [keptCount, hig]
        rw [hk] at hover
        rw [scan_list_ign_dir fuel ig ap rp name rd entries rest st hig]
        exact ih ap rp rest st (by omega) hst hover
      · cases rd with
        | false =>
          have hk : keptCount ig (.dir name false entries rest) = keptCount ig rest := by
            simp [keptCount, hig]
          rw [hk] at hover
          rw [scan_list_dir_eq_false fuel ig ap rp name entries rest st hig]
          rw [ih ap rp rest (dirSt rp name st) (by omega)
            (by rw [dirSt_total]; omega) (by rw [dirSt_total]; omega)]
        | true =>
          have hk : keptCount ig (.dir name true entries rest) =
              keptCount ig entries + keptCount ig rest := by
            simp [keptCount, hig]
          rw [hk] at hover
          rw [scan_list_dir_eq_true fuel ig ap rp name entries rest st hig]
          by_cases hsub : st.statistics.total_files + keptCount ig entries ≤ 500
          · obtain ⟨sub, st2, h2, t2⟩ := scan_list_ok ig fuel (ap ++ "/" ++ name)
              (if rp = "" then name else rp ++ "/" ++ name) (sortFS entries)
              (dirSt rp name st) (by rw [fsSize_sortFS]; omega)
              (by rw [dirSt_total, keptCount_sortFS]; omega)
            simp only [h2]
            rw [ih ap rp rest st2 (by omega)
              (by rw [t2, dirSt_total, keptCount_sortFS]; omega)
              (by rw [t2, dirSt_total, keptCount_sortFS]; omega)]
          · rw [ih (ap ++ "/" ++ name)
              (if rp = "" then name else rp ++ "/" ++ name) (sortFS entries)
              (dirSt rp name st) (by rw [fsSize_sortFS]; omega)
              (by rw [dirSt_total]; omega)
              (by rw [dirSt_total, keptCount_sortFS]; omega)]

/-- Claim C2: scanning a tree with exactly 501 kept (non-ignored) files
aborts the whole scan with the fixed overflow `ValueError` (the spec's
`TooManyFilesError`), while a tree with exactly 500 kept files completes
and reports `total_files = 500`. -/
theorem file_count_overflow (root_path nm : String) (entries : FS)
    (ig : Option (List String)) :
    (keptCount (default_ignore ++ ig.getD []) entries = 501 →
      analyze_directory root_path (.dir nm true entries) ig =
        .error (.valueError tooManyMsg)) ∧
    (keptCount (default_ignore ++ ig.getD []) entries = 500 →
      ∃ pi, analyze_directory root_path (.dir nm true entries) ig = .ok pi ∧
        pi.statistics.total_files = 500) := by
  constructor
  · intro h
    have herr := scan_list_overflow (default_ignore ++ ig.getD [])
      (fsSize entries + 1) root_path "" (sortFS entries)
      { files := [], directories := [], statistics := initStats }
      (by rw [fsSize_sortFS]; omega)
      (by decide)
      (by rw [keptCount_sortFS, h]; decide)
    simp [analyze_directory, herr]
  · intro h
    obtain ⟨its, st2, h2, t2⟩ := scan_list_ok (default_ignore ++ ig.getD [])
      (fsSize entries + 1) root_path "" (sortFS entries)
      { files := [], directories := [], statistics := initStats }
      (by rw [fsSize_sortFS]; omega)
      (by rw [keptCount_sortFS, h]; decide)
    refine ⟨{ project_name := nm, root_path := root_path, struct := its,
              files := st2.files, directories := st2.directories,
              statistics := st2.statistics }, ?_, ?_⟩
    · simp [analyze_directory, h2]
    · show st2.statistics.total_files = 500
      rw [t2, keptCount_sortFS, h]
      rfl

/-- A chain of `n` nested directories, each listing one kept file next to
the next directory: exactly `n` kept files, unique names in every listing. -/
def chainN : Nat → FS
  | 0 => .nil
  | n + 1 => .dir "d" true (chainN n) (.file "a.py" (some 1) none .nil)

theorem keptCount_chainN (n : Nat) :
    keptCount (default_ignore ++ (none : Option (List String)).getD [])
      (chainN n) = n := by
  induction n with
  | zero => rfl
  | succ n ih =>
    have hd : should_ignore "d"
        (default_ignore ++ (none : Option (List String)).getD []) = false := by decide
    have ha : should_ignore "a.py"
        (default_ignore ++ (none : Option (List String)).getD []) = false := by decide
    simp only [chainN, keptCount, hd, ha, ih, Bool.false_eq_true, if_false,
      eq_self_iff_true, if_true]

theorem file_count_overflow_witness :
    analyze_directory "/p" (.dir "p" true (chainN 501)) none =
      .error (.valueError tooManyMsg) ∧
    ∃ pi, analyze_directory "/p" (.dir "p" true (chainN 500)) none = .ok pi ∧
      pi.statistics.total_files = 500 :=
  ⟨(file_count_overflow "/p" "p" (chainN 501) none).1 (keptCount_chainN 501),
   (file_count_overflow "/p" "p" (chainN 500) none).2 (keptCount_chainN 500)⟩

/-! ## Scan determinism: the listing order of `iterdir` does not matter -/

theorem charListLt_nil : ∀ a : List Char, charListLt a [] = false
  | [] => rfl
  | _ :: _ => rfl

theorem charListLt_asymm : ∀ {a b : List Char},
    charListLt a b = true → charListLt b a = false
  | [], [] => by simp [charListLt]
  | [], _ :: _ => by simp [charListLt]
  | _ :: _, [] => by simp [charListLt]
  | a :: as, b :: bs => by
    simp only [charListLt]
    by_cases h1 : a < b
    · rw [if_pos h1]
      intro _
      rw [if_neg (lt_asymm h1), if_pos h1]
    · rw [if_neg h1]
      by_cases h2 : b < a
      · rw [if_pos h2]
        intro hfalse
        exact absurd hfalse (by simp)
      · rw [if_neg h2, if_neg h2, if_neg h1]
        exact charListLt_asymm

/-- The head of `l` (if any) is not below `n`: the invariant a sorted
listing's tail keeps with respect to its head name. -/
def hdOk (n : String) : FS → Bool
  | .nil => true
  | .file m _ _ _ => !charListLt m.data n.data
  | .dir m _ _ _ => !charListLt m.data n.data

/-- Ascending name order along the sibling chain. -/
def sortedFS : FS → Bool
  | .nil => true
  | .file n _ _ rest => hdOk n rest && sortedFS rest
  | .dir n _ _ rest => hdOk n rest && sortedFS rest

theorem hdOk_insertFS (n : String) (e : FS) (hne : hdOk n (withRest e .nil) = true) :
    ∀ l : FS, hdOk n l = true → hdOk n (insertFS e l) = true
  | .nil, _ => by
    simpa [insertFS] using hne
  | .file k s c rest, hl => by
    simp only [insertFS]
    by_cases hc : charListLt k.data (headName e).data
    · rw [if_pos hc]
      simpa [hdOk] using hl
    · rw [if_neg hc]
      cases e with
      | nil => simpa [withRest, hdOk] using hl
      | file m ms mc mr => simpa [withRest, hdOk] using hne
      | dir m mrd mes mr => simpa [withRest, hdOk] using hne
  | .dir k rd es rest, hl => by
    simp only [insertFS]
    by_cases hc : charListLt k.data (headName e).data
    · rw [if_pos hc]
      simpa [hdOk] using hl
    · rw [if_neg hc]
      cases e with
      | nil => simpa [withRest, hdOk] using hl
      | file m ms mc mr => simpa [withRest, hdOk] using hne
      | dir m mrd mes mr => simpa [withRest, hdOk] using hne

theorem sortedFS_insertFS (e : FS) : ∀ l : FS,
    sortedFS l = true → sortedFS (insertFS e l) = true
  | .nil, _ => by
    cases e <;> simp [insertFS, withRest, sortedFS, hdOk]
  | .file n s c rest, hs => by
    simp only [sortedFS, Bool.and_eq_true] at hs
    obtain ⟨h1, h2⟩ := hs
    simp only [insertFS]
    by_cases hc : charListLt n.data (headName e).data
    · rw [if_pos hc]
      have hne : hdOk n (withRest e .nil) = true := by
        cases e with
        | nil => simp [withRest, hdOk]
        | file m ms mc mr =>
          simp only [withRest, hdOk, Bool.not_eq_true']
          exact charListLt_asymm (by simpa [headName] using hc)
        | dir m mrd mes mr =>
          simp only [withRest, hdOk, Bool.not_eq_true']
          exact charListLt_asymm (by simpa [headName] using hc)
      simp only [sortedFS, Bool.and_eq_true]
      exact ⟨hdOk_insertFS n e hne rest h1, sortedFS_insertFS e rest h2⟩
    · rw [if_neg hc]
      cases e with
      | nil => simp [withRest, sortedFS, h1, h2]
      | file m ms mc mr =>
        simp only [withRest, sortedFS, hdOk, Bool.and_eq_true, Bool.not_eq_true']
        exact ⟨by simpa [headName] using hc, h1, h2⟩
      | dir m mrd mes mr =>
        simp only [withRest, sortedFS, hdOk, Bool.and_eq_true, Bool.not_eq_true']
        exact ⟨by simpa [headName] using hc, h1, h2⟩
  | .dir n rd es rest, hs => by
    simp only [sortedFS, Bool.and_eq_true] at hs
    obtain ⟨h1, h2⟩ := hs
    simp only [insertFS]
    by_cases hc : charListLt n.data (headName e).data
    · rw [if_pos hc]
      have hne : hdOk n (withRest e .nil) = true := by
        cases e with
        | nil => simp [withRest, hdOk]
        | file m ms mc mr =>
          simp only [withRest, hdOk, Bool.not_eq_true']
          exact charListLt_asymm (by simpa [headName] using hc)
        | dir m mrd mes mr =>
          simp only [withRest, hdOk, Bool.not_eq_true']
          exact charListLt_asymm (by simpa [headName] using hc)
      simp only [sortedFS, Bool.and_eq_true]
      exact ⟨hdOk_insertFS n e hne rest h1, sortedFS_insertFS e rest h2⟩
    · rw [if_neg hc]
      cases e with
      | nil => simp [withRest, sortedFS, h1, h2]
      | file m ms mc mr =>
        simp only [withRest, sortedFS, hdOk, Bool.and_eq_true, Bool.not_eq_true']
        exact ⟨by simpa [headName] using hc, h1, h2⟩
      | dir m mrd mes mr =>
        simp only [withRest, sortedFS, hdOk, Bool.and_eq_true, Bool.not_eq_true']
        exact ⟨by simpa [headName] using hc, h1, h2⟩

theorem sortedFS_sortFS : ∀ l : FS, sortedFS (sortFS l) = true
  | .nil => rfl
  | .file n s c rest => sortedFS_insertFS _ _ (sortedFS_sortFS rest)
  | .dir n rd es rest => sortedFS_insertFS _ _ (sortedFS_sortFS rest)

theorem sortFS_of_sorted : ∀ l : FS, sortedFS l = true → sortFS l = l
  | .nil, _ => rfl
  | .file n s c rest, hs => by
    simp only [sortedFS, Bool.and_eq_true] at hs
    obtain ⟨h1, h2⟩ := hs
    simp only [sortFS, sortFS_of_sorted rest h2]
    cases rest with
    | nil => rfl
    | file k ks kc kr =>
      simp only [hdOk, Bool.not_eq_true'] at h1
      simp [insertFS, headName, h1, withRest]
    | dir k krd kes kr =>
      simp only [hdOk, Bool.not_eq_true'] at h1
      simp [insertFS, headName, h1, withRest]
  | .dir n rd es rest, hs => by
    simp only [sortedFS, Bool.and_eq_true] at hs
    obtain ⟨h1, h2⟩ := hs
    simp only [sortFS, sortFS_of_sorted rest h2]
    cases rest with
    | nil => rfl
    | file k ks kc kr =>
      simp only [hdOk, Bool.not_eq_true'] at h1
      simp [insertFS, headName, h1, withRest]
    | dir k krd kes kr =>
      simp only [hdOk, Bool.not_eq_true'] at h1
      simp [insertFS, headName, h1, withRest]

theorem sortFS_idem (l : FS) : sortFS (sortFS l) = sortFS l :=
  sortFS_of_sorted _ (sortedFS_sortFS l)

/-- Canonicalise the entries of every subdirectory (but keep this level's
sibling order): two listings of the same filesystem state have the same
`sortFS ∘ canonEach` image. -/
def canonEach : FS → FS
  | .nil => .nil
  | .file n s c r => .file n s c (canonEach r)
  | .dir n rd es r => .dir n rd (sortFS (canonEach es)) (canonEach r)

theorem headName_canonEach (e : FS) : headName (canonEach e) = headName e := by
  cases e <;> rfl

theorem canonEach_withRest (e r : FS) :
    canonEach (withRest e r) = withRest (canonEach e) (canonEach r) := by
  cases e <;> rfl

theorem canonEach_insertFS (e : FS) : ∀ l : FS,
    canonEach (insertFS e l) = insertFS (canonEach e) (canonEach l)
  | .nil => by
    simp [insertFS, canonEach_withRest, canonEach]
  | .file n s c rest => by
    simp only [insertFS, canonEach, headName_canonEach]
    by_cases hc : charListLt n.data (headName e).data
    · rw [if_pos hc, if_pos hc]
      simp only [canonEach, canonEach_insertFS e rest]
    · rw [if_neg hc, if_neg hc, canonEach_withRest]
      rfl
  | .dir n rd es rest => by
    simp only [insertFS, canonEach, headName_canonEach]
    by_cases hc : charListLt n.data (headName e).data
    · rw [if_pos hc, if_pos hc]
      simp only [canonEach, canonEach_insertFS e rest]
    · rw [if_neg hc, if_neg hc, canonEach_withRest]
      rfl

theorem canonEach_sortFS : ∀ l : FS, canonEach (sortFS l) = sortFS (canonEach l)
  | .nil => rfl
  | .file n s c rest => by
    simp only [sortFS, canonEach_insertFS, canonEach, canonEach_sortFS rest]
  | .dir n rd es rest => by
    simp only [sortFS, canonEach_insertFS, canonEach, canonEach_sortFS rest]

theorem fsSize_canonEach : ∀ l : FS, fsSize (canonEach l) = fsSize l
  | .nil => rfl
  | .file n s c rest => by
    simp only [canonEach, fsSize, fsSize_canonEach rest]
  | .dir n rd es rest => by
    simp only [canonEach, fsSize, fsSize_sortFS, fsSize_canonEach es,
      fsSize_canonEach rest]

/-- The scan reads a listing only through `sortFS` at every level, so
canonicalising subdirectory listings does not change its result. -/
theorem scan_list_canonEach (ig : List String) : ∀ (fuel : Nat) (ap rp : String)
    (l : FS) (st : ScanState),
    scan_list fuel ig ap rp (canonEach l) st = scan_list fuel ig ap rp l st := by
  intro fuel
  induction fuel with
  | zero => intro ap rp l st; rfl
  | succ fuel ih =>
    intro ap rp l st
    cases l with
    | nil => rfl
    | file name sz ct rest =>
      simp only [canonEach, scan_list, ih]
    | dir name rd entries rest =>
      simp only [canonEach, scan_list, sortFS_idem, ← canonEach_sortFS, ih]

/-- Claim C5: the scan is deterministic over the filesystem state itself.
Two listings that present the same state -- the same entries with the same
contents at every level, in any enumeration order, i.e. with equal
`sortFS (canonEach ·)` canonical forms -- produce identical `ProjectInfo`
output: the same structural tree, file list, directory list and
statistics, languages included. -/
theorem scan_determinism (root_path nm : String) (r : Bool) (es₁ es₂ : FS)
    (ig : Option (List String))
    (h : sortFS (canonEach es₁) = sortFS (canonEach es₂)) :
    analyze_directory root_path (.dir nm r es₁) ig =
      analyze_directory root_path (.dir nm r es₂) ig := by
  cases r with
  | false => rfl
  | true =>
    have hsz : fsSize es₁ = fsSize es₂ := by
      have h1 : fsSize (sortFS (canonEach es₁)) = fsSize (sortFS (canonEach es₂)) := by
        rw [h]
      rwa [fsSize_sortFS, fsSize_sortFS, fsSize_canonEach, fsSize_canonEach] at h1
    have key : scan_list (fsSize es₁ + 1) (default_ignore ++ ig.getD []) root_path ""
        (sortFS es₁) { files := [], directories := [], statistics := initStats } =
      scan_list (fsSize es₂ + 1) (default_ignore ++ ig.getD []) root_path ""
        (sortFS es₂) { files := [], directories := [], statistics := initStats } := by
      rw [← scan_list_canonEach (default_ignore ++ ig.getD []) (fsSize es₁ + 1)
        root_path "" (sortFS es₁)
        { files := [], directories := [], statistics := initStats }]
      rw [canonEach_sortFS, h, hsz, ← canonEach_sortFS]
      rw [scan_list_canonEach]
    simp only [analyze_directory, key]

/-- Two enumerations of one filesystem state: a directory `src` holding
`a.py` and `m.py`, next to `readme.txt`, listed in different orders at
both levels. -/
def c5_es1 : FS :=
  .dir "src" true
    (.file "m.py" (some 3) (some "x = 1\n") (.file "a.py" (some 1) none .nil))
    (.file "readme.txt" (some 2) none .nil)

def c5_es2 : FS :=
  .file "readme.txt" (some 2) none
    (.dir "src" true
      (.file "a.py" (some 1) none (.file "m.py" (some 3) (some "x = 1\n") .nil))
      .nil)

theorem scan_determinism_witness :
    analyze_directory "/p" (.dir "p" true c5_es1) none =
      analyze_directory "/p" (.dir "p" true c5_es2) none :=
  scan_determinism "/p" "p" true c5_es1 c5_es2 none (by decide)

/-! ## The render/re-parse round trip -/

theorem data_append (s t : String) : (s ++ t).data = s.data ++ t.data := by
  cases s
  cases t
  rfl

theorem data_empty : ("" : String).data = [] := rfl

theorem data_nl : ("\n" : String).data = ['\n'] := rfl

theorem data_last : ("└─ " : String).data = ['└', '─', ' '] := rfl

theorem data_mid : ("├─ " : String).data = ['├', '─', ' '] := rfl

theorem data_sp3 : ("   " : String).data = [' ', ' ', ' '] := rfl

theorem data_bar : ("│  " : String).data = ['│', ' ', ' '] := rfl

/-- Join lines with a terminating newline after each. -/
def joinNl (ls : List (List Char)) : List Char :=
  (ls.map (fun l => l ++ ['\n'])).flatten

/-- The lines `generate_tree_view` emits (without their newline
terminators), with the prefix as a character list. -/
def renderLines (pfx : List Char) : Items → List (List Char)
  | .nil => []
  | .fileI n _ _ _ rest =>
    (pfx ++ connOf (itemsIsNil rest) ++ n.data) :: renderLines pfx rest
  | .dirI n _ its rest =>
    (pfx ++ connOf (itemsIsNil rest) ++ n.data) ::
      (renderLines (pfx ++ extOf (itemsIsNil rest)) its ++ renderLines pfx rest)

/-- The rendered string is exactly the newline-joined line list. -/
theorem gtv_data : ∀ (items : Items) (pfx : String) (b : Bool),
    (generate_tree_view items pfx b).data = joinNl (renderLines pfx.data items)
  | .nil, pfx, b => rfl
  | .fileI n p sz e rest, pfx, b => by
    cases hl : itemsIsNil rest <;>
      simp [generate_tree_view, renderLines, joinNl, connOf, hl, data_append,
        data_last, data_mid, data_nl, gtv_data rest pfx b, List.append_assoc]
  | .dirI n p its rest, pfx, b => by
    cases hl : itemsIsNil rest
    · simp [generate_tree_view, renderLines, joinNl, connOf, extOf, hl,
        data_append, data_mid, data_nl, data_bar,
        gtv_data its (pfx ++ "│  ") false, gtv_data rest pfx b,
        List.append_assoc]
    · simp [generate_tree_view, renderLines, joinNl, connOf, extOf, hl,
        data_append, data_last, data_nl, data_sp3,
        gtv_data its (pfx ++ "   ") true, gtv_data rest pfx b,
        List.append_assoc]

/-- A `contains`-free reading of the `noNlItems` name condition. -/
theorem noNl_of_contains_false {n : List Char} (h : n.contains '\n' = false) :
    ∀ c ∈ n, c ≠ '\n' := by
  intro c hc hceq
  subst hceq
  simp at h
  exact h hc

/-- Rendered lines contain no newline when the prefix and all names are
newline-free. -/
theorem renderLines_noNl : ∀ (items : Items) (pfx : List Char),
    (∀ c ∈ pfx, c ≠ '\n') → noNlItems items = true →
    ∀ l ∈ renderLines pfx items, ∀ c ∈ l, c ≠ '\n'
  | .nil, pfx, hp, hn => by simp [renderLines]
  | .fileI n p sz e rest, pfx, hp, hn => by
    simp only [noNlItems, Bool.and_eq_true, Bool.not_eq_true'] at hn
    obtain ⟨h1, h2⟩ := hn
    intro l hl
    simp only [renderLines, List.mem_cons] at hl
    cases hl with
    | inl heq =>
      subst heq
      intro c hc
      simp only [List.mem_append] at hc
      rcases hc with (hc | hc) | hc
      · exact hp c hc
      · revert hc
        cases hl2 : itemsIsNil rest <;> simp only [connOf, if_true, if_false,
          Bool.false_eq_true, List.mem_cons, List.not_mem_nil, or_false] <;>
          (rintro (rfl | rfl | rfl) <;> decide)
      · exact noNl_of_contains_false h1 c hc
    | inr hmem => exact renderLines_noNl rest pfx hp h2 l hmem
  | .dirI n p its rest, pfx, hp, hn => by
    simp only [noNlItems, Bool.and_eq_true, Bool.not_eq_true'] at hn
    obtain ⟨h1, h2, h3⟩ := hn
    intro l hl
    simp only [renderLines, List.mem_cons, List.mem_append] at hl
    rcases hl with heq | hmem | hmem
    · subst heq
      intro c hc
      simp only [List.mem_append] at hc
      rcases hc with (hc | hc) | hc
      · exact hp c hc
      · revert hc
        cases hl2 : itemsIsNil rest <;> simp only [connOf, if_true, if_false,
          Bool.false_eq_true, List.mem_cons, List.not_mem_nil, or_false] <;>
          (rintro (rfl | rfl | rfl) <;> decide)
      · exact noNl_of_contains_false h1 c hc
    · refine renderLines_noNl its (pfx ++ extOf (itemsIsNil rest)) ?_ h2 l hmem
      intro c hc
      simp only [List.mem_append] at hc
      cases hc with
      | inl hc => exact hp c hc
      | inr hc =>
        revert hc
        cases hl2 : itemsIsNil rest <;> simp only [extOf, if_true, if_false,
          Bool.false_eq_true, List.mem_cons, List.not_mem_nil, or_false] <;>
          (rintro (rfl | rfl | rfl) <;> decide)
    · exact renderLines_noNl rest pfx hp h3 l hmem

/-- Splitting at the newline terminating a newline-free first line. -/
theorem splitNl_append : ∀ (a : List Char), (∀ c ∈ a, c ≠ '\n') →
    ∀ b : List Char, splitNlChars (a ++ '\n' :: b) = a :: splitNlChars b
  | [], _, b => by simp [splitNlChars]
  | c :: a, ha, b => by
    have hc : ¬ c = '\n' := ha c (by simp)
    simp only [List.cons_append, splitNlChars, hc, if_false, List.append_eq]
    rw [splitNl_append a (fun x hx => ha x (by simp [hx])) b]

theorem joinNl_cons (l : List Char) (ls : List (List Char)) :
    joinNl (l :: ls) = l ++ '\n' :: joinNl ls := by
  simp [joinNl]

/-- `splitNlChars` recovers the lines of a newline-joined list (plus the
empty segment after the final terminator). -/
theorem splitNl_joinNl : ∀ ls : List (List Char),
    (∀ l ∈ ls, ∀ c ∈ l, c ≠ '\n') → splitNlChars (joinNl ls) = ls ++ [[]]
  | [], _ => rfl
  | l :: ls, h => by
    have h1 : ∀ c ∈ l, c ≠ '\n' := h l (by simp)
    have h2 : ∀ x ∈ ls, ∀ c ∈ x, c ≠ '\n' := fun x hx => h x (by simp [hx])
    rw [joinNl_cons, splitNl_append l h1 (joinNl ls), splitNl_joinNl ls h2]
    rfl

/-- A prefix good for depth `d`: `3 d` characters, all continuation bars
or blanks -- exactly what the renderer accumulates. -/
def goodPfx (d : Nat) (pfx : List Char) : Prop :=
  pfx.length = 3 * d ∧ ∀ c ∈ pfx, c = '│' ∨ c = ' '

theorem connSplit_skip : ∀ (pfx : List Char),
    (∀ c ∈ pfx, ¬(c = '├' ∨ c = '└')) →
    ∀ (l : List Char) (k : Nat), connSplit (pfx ++ l) k = connSplit l (k + pfx.length)
  | [], _, l, k => by simp [connSplit]
  | c :: pfx, h, l, k => by
    have hc : ¬(c = '├' ∨ c = '└') := h c (by simp)
    simp only [List.cons_append, connSplit, hc, if_false, List.append_eq]
    rw [connSplit_skip pfx (fun x hx => h x (by simp [hx])) l (k + 1)]
    congr 1
    simp
    omega

theorem lineInfo_render (d : Nat) (pfx : List Char) (hp : goodPfx d pfx)
    (last : Bool) (nm : List Char) :
    lineInfo (pfx ++ connOf last ++ nm) = (d, nm) := by
  have hskip := connSplit_skip pfx
    (fun c hc => by rcases hp.2 c hc with rfl | rfl <;> decide)
    (connOf last ++ nm) 0
  rw [List.append_assoc]
  simp only [lineInfo, hskip]
  cases last <;>
    simp [connOf, connSplit, hp.1] <;> omega

/-- The depth-annotated line list of a structural tree. -/
def flatInfos (d : Nat) : Items → List (Nat × List Char)
  | .nil => []
  | .fileI n _ _ _ rest => (d, n.data) :: flatInfos d rest
  | .dirI n _ its rest =>
    (d, n.data) :: (flatInfos (d + 1) its ++ flatInfos d rest)

theorem goodPfx_ext (d : Nat) (pfx : List Char) (hp : goodPfx d pfx) (last : Bool) :
    goodPfx (d + 1) (pfx ++ extOf last) := by
  constructor
  · cases last <;> simp [extOf, hp.1] <;> omega
  · intro c hc
    rcases List.mem_append.mp hc with hc | hc
    · exact hp.2 c hc
    · revert hc
      cases last <;> simp [extOf] <;> rintro rfl <;> decide

theorem map_lineInfo_render : ∀ (items : Items) (d : Nat) (pfx : List Char),
    goodPfx d pfx → (renderLines pfx items).map lineInfo = flatInfos d items
  | .nil, d, pfx, hp => rfl
  | .fileI n p sz e rest, d, pfx, hp => by
    simp only [renderLines, List.map_cons, flatInfos,
      lineInfo_render d pfx hp (itemsIsNil rest) n.data,
      map_lineInfo_render rest d pfx hp]
  | .dirI n p its rest, d, pfx, hp => by
    simp only [renderLines, List.map_cons, List.map_append, flatInfos,
      lineInfo_render d pfx hp (itemsIsNil rest) n.data,
      map_lineInfo_render its (d + 1) (pfx ++ extOf (itemsIsNil rest))
        (goodPfx_ext d pfx hp (itemsIsNil rest)),
      map_lineInfo_render rest d pfx hp]

/-- The head of the remaining line list (if any) sits strictly above
depth `d` -- the stopping condition of `buildForest`. -/
def headDepthLt (d : Nat) : List (Nat × List Char) → Prop
  | [] => True
  | (k, _) :: _ => k < d

theorem headDepthLt_mono {d : Nat} {tail : List (Nat × List Char)}
    (h : headDepthLt d tail) : headDepthLt (d + 1) tail := by
  cases tail with
  | nil => trivial
  | cons p rest =>
    cases p with
    | mk k nm =>
      simp only [headDepthLt] at h ⊢
      omega

theorem headDepthLt_flat (d : Nat) (x : Items) (tail : List (Nat × List Char))
    (h : headDepthLt (d + 1) tail) :
    headDepthLt (d + 1) (flatInfos d x ++ tail) := by
  cases x with
  | nil => simpa [flatInfos] using h
  | fileI n p sz e rest => simp [flatInfos, headDepthLt]
  | dirI n p its rest => simp [flatInfos, headDepthLt]

theorem buildForest_stop (fuel d : Nat) (infos : List (Nat × List Char))
    (h : headDepthLt d infos) (hf : 0 < fuel) :
    buildForest fuel d infos = (.nil, infos) := by
  cases fuel with
  | zero => omega
  | succ f =>
    cases infos with
    | nil => rfl
    | cons p rest =>
      cases p with
      | mk k nm =>
        simp only [headDepthLt] at h
        simp [buildForest, show ¬ k = d from by omega]

theorem buildForest_flat : ∀ (items : Items) (fuel d : Nat)
    (tail : List (Nat × List Char)),
    (flatInfos d items).length < fuel → headDepthLt d tail →
    buildForest fuel d (flatInfos d items ++ tail) = (shapeOfItems items, tail)
  | .nil, fuel, d, tail, hf, ht => by
    simp only [flatInfos, List.nil_append, shapeOfItems]
    exact buildForest_stop fuel d tail ht (by simpa [flatInfos] using hf)
  | .fileI n p sz e rest, fuel, d, tail, hf, ht => by
    simp only [flatInfos, List.length_cons] at hf
    cases fuel with
    | zero => omega
    | succ f =>
      have hstop := buildForest_stop f (d + 1) (flatInfos d rest ++ tail)
        (headDepthLt_flat d rest tail (headDepthLt_mono ht)) (by omega)
      have hrec := buildForest_flat rest f d tail (by omega) ht
      simp [flatInfos, buildForest, hstop, hrec, shapeOfItems]
  | .dirI n p its rest, fuel, d, tail, hf, ht => by
    simp only [flatInfos, List.length_cons, List.length_append] at hf
    cases fuel with
    | zero => omega
    | succ f =>
      have h1 := buildForest_flat its f (d + 1) (flatInfos d rest ++ tail)
        (by omega) (headDepthLt_flat d rest tail (headDepthLt_mono ht))
      have h2 := buildForest_flat rest f d tail (by omega) ht
      simp [flatInfos, buildForest, List.append_assoc, h1, h2, shapeOfItems]

/-- Items whose names are newline-free render to newline-free lines. -/
theorem renderLines_noNl_root (items : Items) (h : noNlItems items = true) :
    ∀ l ∈ renderLines [] items, ∀ c ∈ l, c ≠ '\n' :=
  renderLines_noNl items [] (by simp) h

/-- Claim C9 (amended): for every structural tree whose entry names are
newline-free, re-parsing the rendered tree view by its connector shapes
(`├─ `/`└─ ` connectors at column `3 d`, `│`/blank continuation prefixes)
reconstructs exactly the parent/child nesting and sibling order of the
input: `parseTree (generate_tree_view items "" true) = shapeOfItems items`.
A childless directory and a file have the same shape, which is all the
renderer exposes. -/
theorem tree_view_roundtrip (items : Items) (h : noNlItems items = true) :
    parseTree (generate_tree_view items "" true) = shapeOfItems items := by
  simp only [parseTree]
  rw [show (generate_tree_view items "" true).data =
        joinNl (renderLines [] items) from gtv_data items "" true]
  rw [splitNl_joinNl (renderLines [] items) (renderLines_noNl_root items h)]
  rw [List.dropLast_concat]
  rw [map_lineInfo_render items 0 [] ⟨rfl, by simp⟩]
  have hb := buildForest_flat items ((flatInfos 0 items).length + 1) 0 []
    (by omega) trivial
  rw [List.append_nil] at hb
  rw [hb]

/-- A single file whose name contains a newline. -/
def c9_bad : Items := .fileI "a\nb" "a\nb" 1 "" .nil

/-- Counterexample to claim C9 as stated (over all structural trees): a
name containing a newline renders as two lines, and re-parsing by
connector shape yields two sibling nodes instead of the single input
node. -/
theorem tree_view_roundtrip_counterexample :
    parseTree (generate_tree_view c9_bad "" true) =
      .node "a" .nil (.node "b" .nil .nil) ∧
    shapeOfItems c9_bad = .node "a\nb" .nil .nil ∧
    parseTree (generate_tree_view c9_bad "" true) ≠ shapeOfItems c9_bad := by
  refine ⟨by decide, by decide, by decide⟩

/-- A two-level tree with newline-free names. -/
def c9_ok : Items :=
  .dirI "src" "src"
    (.fileI "a.py" "src/a.py" 1 ".py" (.dirI "pkg" "src/pkg" .nil .nil))
    (.fileI "m.py" "m.py" 2 ".py" .nil)

theorem tree_view_roundtrip_witness :
    noNlItems c9_ok = true ∧
    parseTree (generate_tree_view c9_ok "" true) = shapeOfItems c9_ok :=
  ⟨by decide, tree_view_roundtrip c9_ok (by decide)⟩
